import Mathlib

/-!
Verification of the text-reconstruction and sentence-segmentation pipeline of
`src/pdf_extraction/main.py`.

Strings are modelled as `List Char`.  The character-class predicates model the
Python predicates (`\w`, `\s`, `str.isupper`, `str.isdigit`, `[a-z0-9]`) on the
ASCII fragment that the pipeline's heuristics are written for; this agrees with
CPython's behaviour on every ASCII character.  The regex substitutions
`RE_HYPHEN.sub`, `RE_URL.sub`, `RE_PUNCT_SPACE.sub` and the split `RE_SPLIT.split`
are embedded as executable scanners that implement the leftmost, non-overlapping
global substitution semantics of `re.sub` / `re.split` for these concrete
patterns (greedy `\w+`/`\s+`, lazy `\S+?`, resumption after each match).
-/

namespace PdfExtract

/-- Whitespace as matched by Python's `\s` and `str.split()` on the ASCII range:
space, tab, newline, carriage return, vertical tab, form feed. -/
def pyIsSpace (c : Char) : Bool :=
  c = ' ' || c = '\t' || c = '\n' || c = '\r' || c = '\x0b' || c = '\x0c'

/-- Word characters as matched by Python's `\w` on the ASCII range:
letters, digits and underscore. -/
def isWordChar (c : Char) : Bool :=
  c.isAlpha || c.isDigit || c = '_'

/-- The sentence-ending marks of `RE_PUNCT_SPACE` and `RE_SPLIT`: `.`, `!`, `?`. -/
def isStopChar (c : Char) : Bool :=
  c = '.' || c = '!' || c = '?'

/-- Python's `str.isupper()` on a single character, ASCII range: an uppercase
letter. -/
def pyIsUpper (c : Char) : Bool :=
  'A' ≤ c && c ≤ 'Z'

/-- The character class `[a-z0-9]` of `RE_URL`. -/
def isLcdChar (c : Char) : Bool :=
  ('a' ≤ c && c ≤ 'z') || c.isDigit

/-- Modelled from the external library call `unicodedata.normalize("NFKD", ·)`:
the NFKD decomposition restricted to the characters this development uses.
ASCII characters are NFKD-fixed; U+2116 NUMERO SIGN `№` has the compatibility
decomposition `No` (Unicode data: `2116;...;<compat> 004E 006F`). -/
def nfkdChar (c : Char) : List Char :=
  if c = '№' then ['N', 'o'] else [c]

/-- `unicodedata.normalize("NFKD", raw_text)` over the whole string. -/
def nfkdStr : List Char → List Char
  | [] => []
  | c :: t => nfkdChar c ++ nfkdStr t

/-! ## `RE_HYPHEN = (\w+)-\s*\n\s*(\w+)`, substitution `\1\2`

A match is a maximal word-character run, a `-`, a whitespace run containing at
least one `\n` (`\s*` matches newlines, so `\s*\n\s*` accepts any whitespace
gap with one or more line breaks), and a maximal word-character run; the
substitution deletes the `-` and the gap.  `re.sub` resumes scanning after the
second word run, so characters of a match never serve as left context for a
later match.  The scanner below tracks exactly that: `norm lw` is ordinary
scanning (`lw` = the previous character was a word character available as left
context), `gap` is inside the deleted whitespace gap, `grp` is inside the
second word run of a match. -/

/-- Scanner state for `RE_HYPHEN.sub`. -/
inductive HSt
  | norm (lw : Bool)
  | gap
  | grp

/-- Test, at a `-` with word-character left context, whether the rest of the
input begins with a whitespace gap containing a line break followed by a word
character; this is the condition for `-\s*\n\s*(\w+)` to match. -/
def hyphGapOk (rest : List Char) : Bool :=
  decide ('\n' ∈ rest.takeWhile pyIsSpace) &&
  (match rest.dropWhile pyIsSpace with
   | c :: _ => isWordChar c
   | [] => false)

/-- One pass of the `RE_HYPHEN` scanner. -/
def hyphRun : HSt → List Char → List Char
  | _, [] => []
  | .norm lw, c :: rest =>
    if c = '-' && lw && hyphGapOk rest then hyphRun .gap rest
    else c :: hyphRun (.norm (isWordChar c)) rest
  | .gap, c :: rest =>
    if pyIsSpace c then hyphRun .gap rest
    else c :: hyphRun .grp rest
  | .grp, c :: rest =>
    if isWordChar c then c :: hyphRun .grp rest
    else c :: hyphRun (.norm false) rest

/-- `RE_HYPHEN.sub(r'\1\2', s)` — line 30 of `main.py`. -/
def hyphenSub (s : List Char) : List Char :=
  hyphRun (.norm false) s

/-! ## `RE_URL = (http[s]?://\S+?)\.\s*\n\s*([a-z0-9])`, substitution `\1.\2` -/

/-- The `[a-z0-9]` test at the head of the text after a gap. -/
def urlTryLcd : List Char → Option (Char × List Char)
  | d :: rest => if isLcdChar d then some (d, rest) else none
  | [] => none

/-- After the literal `.` of `RE_URL`: `\s*\n\s*([a-z0-9])` matches iff the
whitespace run that follows contains a `\n` and the first character after the
run is in `[a-z0-9]`; the whole run is consumed. -/
def urlTryGap (t : List Char) : Option (Char × List Char) :=
  if '\n' ∈ t.takeWhile pyIsSpace then urlTryLcd (t.dropWhile pyIsSpace)
  else none

/-- The lazy `\S+?\.` of `RE_URL`, given the text after the first character of
`\S+?`: find the shortest extension ending at a `.` whose gap test succeeds.
Returns the replacement text for the scanned part (`m ++ ['.', d]`) and the
remainder after the matched `[a-z0-9]` character. -/
def urlScanDot : List Char → Option (List Char × List Char)
  | [] => none
  | c :: t =>
    if c = '.' then
      match urlTryGap t with
      | some (d, rest) => some (['.', d], rest)
      | none => (urlScanDot t).map (fun p => (c :: p.1, p.2))
    else if pyIsSpace c then none
    else (urlScanDot t).map (fun p => (c :: p.1, p.2))

/-- The characters of the literal `http://`. -/
def httpChars : List Char := ['h', 't', 't', 'p', ':', '/', '/']

/-- The characters of the literal `https://`. -/
def httpsChars : List Char := ['h', 't', 't', 'p', 's', ':', '/', '/']

/-- Continue a `RE_URL` match after a scheme literal: `\S+?` needs at least one
non-whitespace character, then `urlScanDot` finds the lazy-shortest match of
the rest of the pattern. -/
def urlCont (scheme : List Char) : List Char → Option (List Char × List Char)
  | [] => none
  | c :: t =>
    if pyIsSpace c then none
    else (urlScanDot t).map (fun p => (scheme ++ c :: p.1, p.2))

/-- Try to match `RE_URL` at the start of the input (`http[s]?://` is `https://`
or else `http://`); on success return the replacement text `\1.\2` and the
remainder after the match. -/
def urlMatchAt (s : List Char) : Option (List Char × List Char) :=
  if s.take 8 = httpsChars then urlCont httpsChars (s.drop 8)
  else if s.take 7 = httpChars then urlCont httpChars (s.drop 7)
  else none

/-- Fuelled scanner for `RE_URL.sub`: at each position try a match; on success
emit the replacement and resume after the match, otherwise emit one character.
Each step consumes at least one input character, so fuel `s.length` always
suffices. -/
def urlSubF : Nat → List Char → List Char
  | 0, s => s
  | _ + 1, [] => []
  | fuel + 1, c :: rest =>
    match urlMatchAt (c :: rest) with
    | some (m, rem) => m ++ urlSubF fuel rem
    | none => c :: urlSubF fuel rest

/-- `RE_URL.sub(r'\1.\2', s)` — line 31 of `main.py`. -/
def urlSub (s : List Char) : List Char :=
  urlSubF s.length s

/-! ## Whitespace collapse: `" ".join(text.split())` — line 35 of `main.py` -/

/-- Python's `str.split()`: split on whitespace runs, dropping empty pieces.
`cur` holds the characters of the current word in reverse. -/
def pySplitAux (cur : List Char) : List Char → List (List Char)
  | [] => if cur.isEmpty then [] else [cur.reverse]
  | c :: t =>
    if pyIsSpace c then
      if cur.isEmpty then pySplitAux [] t
      else cur.reverse :: pySplitAux [] t
    else pySplitAux (c :: cur) t

/-- Python's `text.split()`. -/
def pySplitWs (s : List Char) : List (List Char) :=
  pySplitAux [] s

/-- Python's `" ".join(words)`. -/
def joinSp : List (List Char) → List Char
  | [] => []
  | [w] => w
  | w :: v :: ws => w ++ ' ' :: joinSp (v :: ws)

/-- `" ".join(text.split())`. -/
def wsCollapse (s : List Char) : List Char :=
  joinSp (pySplitWs s)

/-! ## `RE_PUNCT_SPACE = \s+([.!?])`, substitution `\1`

The global substitution deletes every maximal whitespace run that is
immediately followed by one of `.`, `!`, `?`.  Character by character: a
whitespace character is deleted iff the first non-whitespace character after it
is a stop mark. -/

/-- Whether a string begins with a stop mark. -/
def headIsStop : List Char → Bool
  | c :: _ => isStopChar c
  | [] => false

/-- `RE_PUNCT_SPACE.sub(r'\1', s)` — line 38 of `main.py`. -/
def punctSub : List Char → List Char
  | [] => []
  | c :: rest =>
    if pyIsSpace c && headIsStop (rest.dropWhile pyIsSpace) then punctSub rest
    else c :: punctSub rest

/-! ## `RE_SPLIT = (?<=[.!?])\s+`, `re.split` — line 41 of `main.py`

A delimiter is a whitespace run immediately preceded by a stop mark; the run is
removed and the text on either side forms adjacent pieces (so pieces keep their
terminal stop mark).  `re.split("")` yields `[""]`, and a trailing delimiter
yields a final empty piece. -/

/-- Whether a string begins with a whitespace character. -/
def headIsWs : List Char → Bool
  | c :: _ => pyIsSpace c
  | [] => false

/-- Scanner for `RE_SPLIT.split`: `some acc` is accumulating a piece (reversed),
`none` is consuming the whitespace of a delimiter. -/
def splitRun : Option (List Char) → List Char → List (List Char)
  | some acc, [] => [acc.reverse]
  | none, [] => [[]]
  | some acc, c :: rest =>
    if isStopChar c && headIsWs rest then (c :: acc).reverse :: splitRun none rest
    else splitRun (some (c :: acc)) rest
  | none, c :: rest =>
    if pyIsSpace c then splitRun none rest
    else if isStopChar c && headIsWs rest then [c] :: splitRun none rest
    else splitRun (some [c]) rest

/-- `RE_SPLIT.split(text)`. -/
def reSplit (s : List Char) : List (List Char) :=
  splitRun (some []) s

/-! ## Filter — line 44 of `main.py` -/

/-- Python's `str.strip()`: remove leading and trailing whitespace. -/
def pyStrip (s : List Char) : List Char :=
  ((s.dropWhile pyIsSpace).reverse.dropWhile pyIsSpace).reverse

/-- Python's `str.isdigit()` on the ASCII range: non-empty and all digits. -/
def pyIsDigitStr (s : List Char) : Bool :=
  !s.isEmpty && s.all Char.isDigit

/-- `[s.strip() for s in sentences if len(s.strip()) > 10 and not s.isdigit()]`.
Note the `isdigit` test is applied to the unstripped candidate, exactly as in
the source. -/
def filterSentences (cands : List (List Char)) : List (List Char) :=
  (cands.filter (fun s => decide (10 < (pyStrip s).length) && !pyIsDigitStr s)).map pyStrip

/-- Steps 1–4 of `clean_and_split_text` (lines 27–38 of `main.py`): Unicode
normalization, then the two structural regex fixes, then whitespace
normalization, then punctuation cleanup. -/
def cleanStage (s : List Char) : List Char :=
  punctSub (wsCollapse (urlSub (hyphenSub (nfkdStr s))))

/-- `clean_and_split_text` of `main.py`: the clean stage followed by the split
(step 5) and the filter (step 6). -/
def clean_and_split_text (raw : List Char) : List (List Char) :=
  filterSentences (reSplit (cleanStage raw))

/-! ## Block handling — `extract_sentences`, lines 59–81 of `main.py` -/

/-- A page block as delivered by the block source: `btype` models `b[6]`
(0 = text, 1 = image), `content` models `b[4]`. -/
structure Block where
  btype : Nat
  content : List Char
deriving DecidableEq

/-- The per-block processing of lines 67–74: strip, then force a terminal `.`
onto short capitalized blocks lacking terminal punctuation. -/
def headerAdjust (raw : List Char) : List Char :=
  let t := pyStrip raw
  if t.length < 100 && !t.isEmpty && pyIsUpper (t.headD ' ') then
    if (t.getLastD ' ') ∈ (['.', '!', ':', ';', '?'] : List Char) then t
    else t ++ ['.']
  else t

/-- All blocks of a document in page order then block order (the two nested
`for` loops of lines 59–64). -/
def allBlocks : List (List Block) → List Block
  | [] => []
  | p :: ps => p ++ allBlocks ps

/-- The text blocks (`b[6] == 0`) of a document, in reading order. -/
def textBlocks (pages : List (List Block)) : List Block :=
  (allBlocks pages).filter (fun b => b.btype == 0)

/-- Python's `"\n".join(parts)` — line 79 of `main.py`. -/
def joinNL : List (List Char) → List Char
  | [] => []
  | [b] => b
  | b :: b2 :: bs => b ++ '\n' :: joinNL (b2 :: bs)

/-- The core of the `extract_sentences` endpoint: process each text block,
join with line breaks, then run `clean_and_split_text`. -/
def extract_sentences (pages : List (List Block)) : List (List Char) :=
  clean_and_split_text (joinNL ((textBlocks pages).map (fun b => headerAdjust b.content)))

/-! ## Spec-ordered composition (for the refinement claim)

The spec orders the phases as Structural Repair, then the Normalizer
(Unicode normalization, whitespace collapse, punctuation-spacing cleanup),
then the Segmenter & Filter. -/

/-- The spec's Structural Repair phase: hyphenation repair then URL repair. -/
def specStructuralRepair (s : List Char) : List Char :=
  urlSub (hyphenSub s)

/-- The spec's Normalizer phase, in the spec's order: Unicode normalization,
whitespace collapse, punctuation-spacing cleanup. -/
def specNormalizer (s : List Char) : List Char :=
  punctSub (wsCollapse (nfkdStr s))

/-- The spec-ordered composition Segmenter∘Normalizer∘StructuralRepair applied
to the joined document string. -/
def specOrderPipeline (raw : List Char) : List (List Char) :=
  filterSentences (reSplit (specNormalizer (specStructuralRepair raw)))

/-! ## Verification predicates -/

/-- No two consecutive whitespace characters. -/
def noTwoWs : List Char → Bool
  | [] => true
  | [_] => true
  | a :: b :: t => !(pyIsSpace a && pyIsSpace b) && noTwoWs (b :: t)

/-- A word list as produced by `str.split()`: every word is non-empty and free
of whitespace. -/
def GoodWords (ws : List (List Char)) : Prop :=
  ∀ w ∈ ws, w ≠ [] ∧ ∀ c ∈ w, pyIsSpace c = false

/-- Every word after the first starts with a non-stop character (the normal
form produced by the punctuation-spacing cleanup). -/
def StopFreeTail : List (List Char) → Prop
  | [] => True
  | _ :: rest => ∀ w ∈ rest, headIsStop w = false

/-- The text already emitted into the current piece of the split scanner. -/
def accPart : Option (List Char) → List Char
  | some acc => acc.reverse
  | none => []

/-! ## Character-class lemmas -/

/-- A whitespace character is one of the six ASCII whitespace characters. -/
theorem space_cases {c : Char} (h : pyIsSpace c = true) :
    c = ' ' ∨ c = '\t' ∨ c = '\n' ∨ c = '\r' ∨ c = '\x0b' ∨ c = '\x0c' := by
  have h' := h
  simp only [pyIsSpace, Bool.or_eq_true, decide_eq_true_eq] at h'
  tauto

/-- Word characters are not whitespace. -/
theorem word_not_space {c : Char} (h : isWordChar c = true) : pyIsSpace c = false := by
  cases hs : pyIsSpace c with
  | false => rfl
  | true =>
    rcases space_cases hs with rfl | rfl | rfl | rfl | rfl | rfl <;>
      exact absurd h (by decide)

/-- Stop marks are not whitespace. -/
theorem stop_not_space {c : Char} (h : isStopChar c = true) : pyIsSpace c = false := by
  cases hs : pyIsSpace c with
  | false => rfl
  | true =>
    rcases space_cases hs with rfl | rfl | rfl | rfl | rfl | rfl <;>
      exact absurd h (by decide)

/-- `[a-z0-9]` characters are not whitespace. -/
theorem lcd_not_space {c : Char} (h : isLcdChar c = true) : pyIsSpace c = false := by
  cases hs : pyIsSpace c with
  | false => rfl
  | true =>
    rcases space_cases hs with rfl | rfl | rfl | rfl | rfl | rfl <;>
      exact absurd h (by decide)

/-- Word characters are not the hyphen. -/
theorem word_ne_dash {c : Char} (h : isWordChar c = true) : ¬(c = '-') := by
  intro rfl_h
  subst rfl_h
  exact absurd h (by decide)

/-! ## takeWhile / dropWhile helpers -/

/-- `takeWhile` keeps a list all of whose elements satisfy the test. -/
theorem takeWhile_all {p : Char → Bool} :
    ∀ {xs : List Char}, (∀ c ∈ xs, p c = true) → xs.takeWhile p = xs := by
  intro xs
  induction xs with
  | nil => intro _; rfl
  | cons a t ih =>
    intro h
    have ha : p a = true := h a (by simp)
    simp only [List.takeWhile_cons, ha, if_true]
    rw [ih (fun c hc => h c (by simp [hc]))]

/-- `dropWhile` drops a list all of whose elements satisfy the test. -/
theorem dropWhile_all {p : Char → Bool} :
    ∀ {xs : List Char}, (∀ c ∈ xs, p c = true) → xs.dropWhile p = [] := by
  intro xs
  induction xs with
  | nil => intro _; rfl
  | cons a t ih =>
    intro h
    have ha : p a = true := h a (by simp)
    simp only [List.dropWhile_cons, ha, if_true]
    exact ih (fun c hc => h c (by simp [hc]))

/-- `takeWhile` passes over an all-satisfying front segment. -/
theorem takeWhile_append_all {p : Char → Bool} {ys : List Char} :
    ∀ {xs : List Char}, (∀ c ∈ xs, p c = true) →
      (xs ++ ys).takeWhile p = xs ++ ys.takeWhile p := by
  intro xs
  induction xs with
  | nil => intro _; rfl
  | cons a t ih =>
    intro h
    have ha : p a = true := h a (by simp)
    simp only [List.cons_append, List.takeWhile_cons, ha, if_true]
    rw [ih (fun c hc => h c (by simp [hc]))]

/-- `dropWhile` skips an all-satisfying front segment. -/
theorem dropWhile_append_all {p : Char → Bool} {ys : List Char} :
    ∀ {xs : List Char}, (∀ c ∈ xs, p c = true) →
      (xs ++ ys).dropWhile p = ys.dropWhile p := by
  intro xs
  induction xs with
  | nil => intro _; rfl
  | cons a t ih =>
    intro h
    have ha : p a = true := h a (by simp)
    simp only [List.cons_append, List.dropWhile_cons, ha, if_true]
    exact ih (fun c hc => h c (by simp [hc]))

/-- `takeWhile` stops at a failing head. -/
theorem takeWhile_cons_false {p : Char → Bool} {c : Char} {t : List Char}
    (h : p c = false) : (c :: t).takeWhile p = [] := by
  simp [List.takeWhile_cons, h]

/-- `dropWhile` keeps a list with a failing head. -/
theorem dropWhile_cons_false {p : Char → Bool} {c : Char} {t : List Char}
    (h : p c = false) : (c :: t).dropWhile p = c :: t := by
  simp [List.dropWhile_cons, h]

/-! ## Head and strip lemmas -/

/-- The head test only looks at a non-empty front segment. -/
theorem headIsWs_append {xs ys : List Char} (h : xs ≠ []) :
    headIsWs (xs ++ ys) = headIsWs xs := by
  cases xs with
  | nil => exact absurd rfl h
  | cons a t => rfl

/-- The stop-head test only looks at a non-empty front segment. -/
theorem headIsStop_append {xs ys : List Char} (h : xs ≠ []) :
    headIsStop (xs ++ ys) = headIsStop xs := by
  cases xs with
  | nil => exact absurd rfl h
  | cons a t => rfl

/-- A string with non-whitespace ends is fixed by `str.strip()`. -/
theorem strip_eq_self {s : List Char} (h1 : headIsWs s = false)
    (h2 : headIsWs s.reverse = false) : pyStrip s = s := by
  unfold pyStrip
  cases s with
  | nil => rfl
  | cons a t =>
    have hd : (a :: t).dropWhile pyIsSpace = a :: t := dropWhile_cons_false h1
    rw [hd]
    cases hr : (a :: t).reverse with
    | nil => simp at hr
    | cons b u =>
      have hb : pyIsSpace b = false := by rw [hr] at h2; exact h2
      rw [dropWhile_cons_false hb, ← hr, List.reverse_reverse]

/-- An all-whitespace string strips to the empty string. -/
theorem strip_all_space {s : List Char} (h : ∀ c ∈ s, pyIsSpace c = true) :
    pyStrip s = [] := by
  unfold pyStrip
  rw [dropWhile_all h]
  rfl

/-! ## Hyphen-scanner lemmas -/

/-- The scanner emits nothing on empty input, in any state. -/
theorem hyphRun_nil (st : HSt) : hyphRun st [] = [] := by
  cases st <;> rfl

/-- Step equation for the `norm` state. -/
theorem hyphRun_norm_cons (b : Bool) (c : Char) (t : List Char) :
    hyphRun (.norm b) (c :: t) =
      if (decide (c = '-') && b && hyphGapOk t) = true then hyphRun .gap t
      else c :: hyphRun (.norm (isWordChar c)) t := rfl

/-- Step equation for the `gap` state. -/
theorem hyphRun_gap_cons (c : Char) (t : List Char) :
    hyphRun .gap (c :: t) =
      if pyIsSpace c = true then hyphRun .gap t else c :: hyphRun .grp t := rfl

/-- Step equation for the `grp` state. -/
theorem hyphRun_grp_cons (c : Char) (t : List Char) :
    hyphRun .grp (c :: t) =
      if isWordChar c = true then c :: hyphRun .grp t
      else c :: hyphRun (.norm false) t := rfl

/-- Scanning a non-empty word-character run from a `norm` state emits the run
and records word-character left context. -/
theorem hyphRun_word_run {r : List Char} :
    ∀ {w : List Char} {b : Bool}, w ≠ [] → (∀ c ∈ w, isWordChar c = true) →
      hyphRun (.norm b) (w ++ r) = w ++ hyphRun (.norm true) r := by
  intro w
  induction w with
  | nil => intro b hne _; exact absurd rfl hne
  | cons a t ih =>
    intro b _ h
    have ha : isWordChar a = true := h a (by simp)
    have hd : decide (a = '-') = false := decide_eq_false (word_ne_dash ha)
    show hyphRun (.norm b) (a :: (t ++ r)) = a :: (t ++ hyphRun (.norm true) r)
    rw [hyphRun_norm_cons, hd]
    simp only [Bool.false_and, Bool.false_eq_true, if_false, ha]
    cases t with
    | nil => rfl
    | cons x xs =>
      rw [ih (by simp) (fun c hc => h c (by simp [hc]))]

/-- The gap state silently drops whitespace. -/
theorem hyphRun_gap_run {r : List Char} :
    ∀ {g : List Char}, (∀ c ∈ g, pyIsSpace c = true) →
      hyphRun .gap (g ++ r) = hyphRun .gap r := by
  intro g
  induction g with
  | nil => intro _; rfl
  | cons a t ih =>
    intro h
    have ha : pyIsSpace a = true := h a (by simp)
    show hyphRun .gap (a :: (t ++ r)) = hyphRun .gap r
    rw [hyphRun_gap_cons, if_pos ha]
    exact ih (fun c hc => h c (by simp [hc]))

/-- The second-word state emits word characters without making them available
as left context. -/
theorem hyphRun_grp_run {r : List Char} :
    ∀ {w : List Char}, (∀ c ∈ w, isWordChar c = true) →
      hyphRun .grp (w ++ r) = w ++ hyphRun .grp r := by
  intro w
  induction w with
  | nil => intro _; rfl
  | cons a t ih =>
    intro h
    have ha : isWordChar a = true := h a (by simp)
    show hyphRun .grp (a :: (t ++ r)) = a :: (t ++ hyphRun .grp r)
    rw [hyphRun_grp_cons, if_pos ha, ih (fun c hc => h c (by simp [hc]))]

/-- Membership in `takeWhile` output implies membership in the input. -/
theorem mem_takeWhile_mem {p : Char → Bool} :
    ∀ {l : List Char} {a : Char}, a ∈ l.takeWhile p → a ∈ l := by
  intro l
  induction l with
  | nil => intro a h; cases h
  | cons c t ih =>
    intro a h
    rw [List.takeWhile_cons] at h
    by_cases hc : p c = true
    · rw [if_pos hc] at h
      rcases (List.mem_cons).1 h with h | h
      · simp [h]
      · exact (List.mem_cons).2 (Or.inr (ih h))
    · rw [if_neg hc] at h
      cases h

/-- A successful gap test means the rest of the input holds a line break. -/
theorem hyphGapOk_newline {rest : List Char} (h : hyphGapOk rest = true) :
    '\n' ∈ rest := by
  unfold hyphGapOk at h
  have h1 : '\n' ∈ rest.takeWhile pyIsSpace := by
    rcases Bool.and_eq_true_iff.mp h with ⟨h1, _⟩
    exact of_decide_eq_true h1
  exact mem_takeWhile_mem h1

/-- A string without line breaks is fixed by the hyphen repair, whatever the
left context. -/
theorem hyphRun_no_newline :
    ∀ {s : List Char} {b : Bool}, '\n' ∉ s → hyphRun (.norm b) s = s := by
  intro s
  induction s with
  | nil => intro b _; rfl
  | cons a t ih =>
    intro b h
    have hok : hyphGapOk t = false := by
      cases hg : hyphGapOk t with
      | false => rfl
      | true => exact absurd (by simp [hyphGapOk_newline hg]) h
    rw [hyphRun_norm_cons, hok]
    simp only [Bool.and_false, Bool.false_eq_true, if_false]
    rw [ih (fun hm => h (by simp [hm]))]

/-- Every emitted character comes from the input. -/
theorem hyphRun_mem :
    ∀ {s : List Char} (st : HSt) {a : Char}, a ∈ hyphRun st s → a ∈ s := by
  intro s
  induction s with
  | nil => intro st a h; rw [hyphRun_nil] at h; cases h
  | cons c t ih =>
    intro st a h
    cases st with
    | norm lw =>
      rw [hyphRun_norm_cons] at h
      by_cases hc : (decide (c = '-') && lw && hyphGapOk t) = true
      · rw [if_pos hc] at h
        exact (List.mem_cons).2 (Or.inr (ih .gap h))
      · rw [if_neg hc] at h
        rcases (List.mem_cons).1 h with h | h
        · simp [h]
        · exact (List.mem_cons).2 (Or.inr (ih _ h))
    | gap =>
      rw [hyphRun_gap_cons] at h
      by_cases hc : pyIsSpace c = true
      · rw [if_pos hc] at h
        exact (List.mem_cons).2 (Or.inr (ih .gap h))
      · rw [if_neg hc] at h
        rcases (List.mem_cons).1 h with h | h
        · simp [h]
        · exact (List.mem_cons).2 (Or.inr (ih .grp h))
    | grp =>
      rw [hyphRun_grp_cons] at h
      by_cases hc : isWordChar c = true
      · rw [if_pos hc] at h
        rcases (List.mem_cons).1 h with h | h
        · simp [h]
        · exact (List.mem_cons).2 (Or.inr (ih .grp h))
      · rw [if_neg hc] at h
        rcases (List.mem_cons).1 h with h | h
        · simp [h]
        · exact (List.mem_cons).2 (Or.inr (ih _ h))

/-- An all-whitespace string is fixed by the hyphen repair. -/
theorem hyphRun_all_space :
    ∀ {s : List Char} {b : Bool}, (∀ c ∈ s, pyIsSpace c = true) →
      hyphRun (.norm b) s = s := by
  intro s
  induction s with
  | nil => intro b _; rfl
  | cons a t ih =>
    intro b h
    have ha : pyIsSpace a = true := h a (by simp)
    have hd : decide (a = '-') = false := by
      apply decide_eq_false
      intro he
      rw [he] at ha
      exact absurd ha (by decide)
    rw [hyphRun_norm_cons, hd]
    simp only [Bool.false_and, Bool.false_eq_true, if_false]
    rw [ih (fun c hc => h c (by simp [hc]))]

/-! ## URL-scanner lemmas -/

/-- The fuelled scanner emits nothing on empty input. -/
theorem urlSubF_nil (fuel : Nat) : urlSubF fuel [] = [] := by
  cases fuel <;> rfl

/-- Membership in `dropWhile` output implies membership in the input. -/
theorem mem_dropWhile_mem {p : Char → Bool} :
    ∀ {l : List Char} {a : Char}, a ∈ l.dropWhile p → a ∈ l := by
  intro l
  induction l with
  | nil => intro a h; cases h
  | cons c t ih =>
    intro a h
    rw [List.dropWhile_cons] at h
    by_cases hc : p c = true
    · rw [if_pos hc] at h
      exact (List.mem_cons).2 (Or.inr (ih h))
    · rw [if_neg hc] at h
      exact h

/-- A successful gap test on the URL pattern means a line break is present. -/
theorem urlTryGap_newline {t : List Char} {p : Char × List Char}
    (h : urlTryGap t = some p) : '\n' ∈ t := by
  unfold urlTryGap at h
  by_cases hc : '\n' ∈ t.takeWhile pyIsSpace
  · exact mem_takeWhile_mem hc
  · rw [if_neg hc] at h
    cases h

/-- A successful lazy scan means a line break is present. -/
theorem urlScanDot_newline :
    ∀ {t : List Char} {p : List Char × List Char},
      urlScanDot t = some p → '\n' ∈ t := by
  intro t
  induction t with
  | nil => intro p h; cases h
  | cons c t ih =>
    intro p h
    simp only [urlScanDot] at h
    by_cases hc : c = '.'
    · rw [if_pos hc] at h
      cases hg : urlTryGap t with
      | some q =>
        exact (List.mem_cons).2 (Or.inr (urlTryGap_newline hg))
      | none =>
        rw [hg] at h
        cases hs : urlScanDot t with
        | some q => exact (List.mem_cons).2 (Or.inr (ih hs))
        | none => rw [hs] at h; cases h
    · rw [if_neg hc] at h
      by_cases hw : pyIsSpace c = true
      · rw [if_pos hw] at h; cases h
      · rw [if_neg hw] at h
        cases hs : urlScanDot t with
        | some q => exact (List.mem_cons).2 (Or.inr (ih hs))
        | none => rw [hs] at h; cases h

/-- A successful continuation after a scheme means a line break is present. -/
theorem urlCont_newline {scheme r : List Char} {p : List Char × List Char}
    (h : urlCont scheme r = some p) : '\n' ∈ r := by
  cases r with
  | nil => cases h
  | cons c t =>
    simp only [urlCont] at h
    by_cases hw : pyIsSpace c = true
    · rw [if_pos hw] at h; cases h
    · rw [if_neg hw] at h
      cases hs : urlScanDot t with
      | some q => exact (List.mem_cons).2 (Or.inr (urlScanDot_newline hs))
      | none => rw [hs] at h; cases h

/-- A successful `RE_URL` match means a line break is present. -/
theorem urlMatchAt_newline {s : List Char} {p : List Char × List Char}
    (h : urlMatchAt s = some p) : '\n' ∈ s := by
  unfold urlMatchAt at h
  by_cases h8 : s.take 8 = httpsChars
  · rw [if_pos h8] at h
    exact List.drop_subset 8 s (urlCont_newline h)
  · rw [if_neg h8] at h
    by_cases h7 : s.take 7 = httpChars
    · rw [if_pos h7] at h
      exact List.drop_subset 7 s (urlCont_newline h)
    · rw [if_neg h7] at h
      cases h

/-- A string without line breaks is fixed by the URL repair, for any fuel. -/
theorem urlSubF_no_newline :
    ∀ {fuel : Nat} {s : List Char}, '\n' ∉ s → urlSubF fuel s = s := by
  intro fuel
  induction fuel with
  | zero => intro s _; rfl
  | succ n ih =>
    intro s h
    cases s with
    | nil => rfl
    | cons c t =>
      have hm : urlMatchAt (c :: t) = none := by
        cases hm : urlMatchAt (c :: t) with
        | none => rfl
        | some p => exact absurd (urlMatchAt_newline hm) h
      show urlSubF (n + 1) (c :: t) = c :: t
      simp only [urlSubF, hm]
      rw [ih (fun hmem => h (by simp [hmem]))]

/-- On an all-whitespace string the URL pattern cannot match. -/
theorem urlMatchAt_all_space {s : List Char}
    (h : ∀ c ∈ s, pyIsSpace c = true) : urlMatchAt s = none := by
  unfold urlMatchAt
  have h8 : ¬(s.take 8 = httpsChars) := by
    intro he
    have : 'h' ∈ s.take 8 := by rw [he]; decide
    exact absurd (h 'h' (List.take_subset 8 s this)) (by decide)
  have h7 : ¬(s.take 7 = httpChars) := by
    intro he
    have : 'h' ∈ s.take 7 := by rw [he]; decide
    exact absurd (h 'h' (List.take_subset 7 s this)) (by decide)
  rw [if_neg h8, if_neg h7]

/-- An all-whitespace string is fixed by the URL repair, for any fuel. -/
theorem urlSubF_all_space :
    ∀ {fuel : Nat} {s : List Char}, (∀ c ∈ s, pyIsSpace c = true) →
      urlSubF fuel s = s := by
  intro fuel
  induction fuel with
  | zero => intro s _; rfl
  | succ n ih =>
    intro s h
    cases s with
    | nil => rfl
    | cons c t =>
      show urlSubF (n + 1) (c :: t) = c :: t
      simp only [urlSubF, urlMatchAt_all_space h]
      rw [ih (fun x hx => h x (by simp [hx]))]

/-- Characters of a gap-test result come from its input. -/
theorem urlTryGap_mem {t : List Char} {d : Char} {rest : List Char}
    (h : urlTryGap t = some (d, rest)) :
    d ∈ t ∧ ∀ a ∈ rest, a ∈ t := by
  unfold urlTryGap at h
  by_cases hc : '\n' ∈ t.takeWhile pyIsSpace
  · rw [if_pos hc] at h
    cases hdw : t.dropWhile pyIsSpace with
    | nil => rw [hdw] at h; cases h
    | cons d0 r0 =>
      rw [hdw] at h
      simp only [urlTryLcd] at h
      by_cases hl : isLcdChar d0 = true
      · rw [if_pos hl] at h
        cases h
        constructor
        · exact mem_dropWhile_mem (by rw [hdw]; simp)
        · intro a ha
          exact mem_dropWhile_mem (by rw [hdw]; simp [ha])
      · rw [if_neg hl] at h
        cases h
  · rw [if_neg hc] at h
    cases h

/-- Characters of a lazy-scan result come from its input. -/
theorem urlScanDot_mem :
    ∀ {t m rest : List Char}, urlScanDot t = some (m, rest) →
      (∀ a ∈ m, a ∈ t) ∧ (∀ a ∈ rest, a ∈ t) := by
  intro t
  induction t with
  | nil => intro m rest h; cases h
  | cons c t ih =>
    intro m rest h
    simp only [urlScanDot] at h
    by_cases hc : c = '.'
    · subst hc
      rw [if_pos rfl] at h
      cases hg : urlTryGap t with
      | some q =>
        obtain ⟨d, r0⟩ := q
        rw [hg] at h
        have h' : some ((['.', d] : List Char), r0) = some (m, rest) := h
        cases h'
        obtain ⟨hd, hr⟩ := urlTryGap_mem hg
        refine ⟨?_, ?_⟩
        · intro a ha
          have : a = '.' ∨ a = d := by simpa using ha
          rcases this with rfl | rfl
          · exact (List.mem_cons).2 (Or.inl rfl)
          · exact (List.mem_cons).2 (Or.inr hd)
        · intro a ha
          exact (List.mem_cons).2 (Or.inr (hr a ha))
      | none =>
        rw [hg] at h
        cases hs : urlScanDot t with
        | some q =>
          obtain ⟨m0, r0⟩ := q
          rw [hs] at h
          have h' : some (('.' :: m0 : List Char), r0) = some (m, rest) := h
          cases h'
          obtain ⟨hm, hr⟩ := ih hs
          refine ⟨?_, ?_⟩
          · intro a ha
            rcases (List.mem_cons).1 ha with ha | ha
            · exact (List.mem_cons).2 (Or.inl ha)
            · exact (List.mem_cons).2 (Or.inr (hm a ha))
          · intro a ha
            exact (List.mem_cons).2 (Or.inr (hr a ha))
        | none => rw [hs] at h; cases h
    · rw [if_neg hc] at h
      by_cases hw : pyIsSpace c = true
      · rw [if_pos hw] at h; cases h
      · rw [if_neg hw] at h
        cases hs : urlScanDot t with
        | some q =>
          obtain ⟨m0, r0⟩ := q
          rw [hs] at h
          have h' : some ((c :: m0 : List Char), r0) = some (m, rest) := h
          cases h'
          obtain ⟨hm, hr⟩ := ih hs
          refine ⟨?_, ?_⟩
          · intro a ha
            rcases (List.mem_cons).1 ha with ha | ha
            · exact (List.mem_cons).2 (Or.inl ha)
            · exact (List.mem_cons).2 (Or.inr (hm a ha))
          · intro a ha
            exact (List.mem_cons).2 (Or.inr (hr a ha))
        | none => rw [hs] at h; cases h

/-- The characters of `http://` are among those of `https://`. -/
theorem http_sub_https : ∀ a ∈ httpChars, a ∈ httpsChars := by decide

/-- Characters of a match result come from the input or the scheme literals. -/
theorem urlMatchAt_mem {s m rem : List Char}
    (h : urlMatchAt s = some (m, rem)) :
    (∀ a ∈ m, a ∈ s ∨ a ∈ httpsChars) ∧ (∀ a ∈ rem, a ∈ s) := by
  unfold urlMatchAt at h
  have hcont : ∀ (scheme : List Char) (k : Nat),
      (∀ a ∈ scheme, a ∈ httpsChars) →
      urlCont scheme (s.drop k) = some (m, rem) →
      (∀ a ∈ m, a ∈ s ∨ a ∈ httpsChars) ∧ (∀ a ∈ rem, a ∈ s) := by
    intro scheme k hsch hc
    cases hdk : s.drop k with
    | nil => rw [hdk] at hc; cases hc
    | cons c t =>
      rw [hdk] at hc
      simp only [urlCont] at hc
      by_cases hw : pyIsSpace c = true
      · rw [if_pos hw] at hc; cases hc
      · rw [if_neg hw] at hc
        cases hs : urlScanDot t with
        | some q =>
          obtain ⟨m0, r0⟩ := q
          rw [hs] at hc
          have hc' : some ((scheme ++ c :: m0 : List Char), r0) = some (m, rem) := hc
          cases hc'
          obtain ⟨hm, hr⟩ := urlScanDot_mem hs
          have hsub : ∀ a, a ∈ c :: t → a ∈ s := by
            intro a ha
            exact List.drop_subset k s (by rw [hdk]; exact ha)
          refine ⟨?_, ?_⟩
          · intro a ha
            rcases List.mem_append.1 ha with ha | ha
            · exact Or.inr (hsch a ha)
            · rcases (List.mem_cons).1 ha with ha | ha
              · exact Or.inl (hsub a (by simp [ha]))
              · exact Or.inl (hsub a (by simp [hm a ha]))
          · intro a ha
            exact hsub a (by simp [hr a ha])
        | none => rw [hs] at hc; cases hc
  by_cases h8 : s.take 8 = httpsChars
  · rw [if_pos h8] at h
    exact hcont httpsChars 8 (fun a ha => ha) h
  · rw [if_neg h8] at h
    by_cases h7 : s.take 7 = httpChars
    · rw [if_pos h7] at h
      exact hcont httpChars 7 http_sub_https h
    · rw [if_neg h7] at h
      cases h

/-- Characters of the URL repair output come from the input or the scheme
literals. -/
theorem urlSubF_mem :
    ∀ {fuel : Nat} {s : List Char} {a : Char},
      a ∈ urlSubF fuel s → a ∈ s ∨ a ∈ httpsChars := by
  intro fuel
  induction fuel with
  | zero => intro s a h; exact Or.inl h
  | succ n ih =>
    intro s a h
    cases s with
    | nil => rw [urlSubF_nil] at h; cases h
    | cons c t =>
      rw [show urlSubF (n + 1) (c :: t) =
          (match urlMatchAt (c :: t) with
           | some (m, rem) => m ++ urlSubF n rem
           | none => c :: urlSubF n t) from rfl] at h
      cases hm : urlMatchAt (c :: t) with
      | some p =>
        rw [hm] at h
        obtain ⟨m0, rem0⟩ := p
        obtain ⟨hmem, hrem⟩ := urlMatchAt_mem hm
        rcases List.mem_append.1 h with h | h
        · exact hmem a h
        · rcases ih h with h | h
          · exact Or.inl (hrem a h)
          · exact Or.inr h
      | none =>
        rw [hm] at h
        rcases (List.mem_cons).1 h with h | h
        · exact Or.inl (by simp [h])
        · rcases ih h with h | h
          · exact Or.inl (by simp [h])
          · exact Or.inr h

/-- Computation of the lazy scan on the amended-claim shape. -/
theorem urlScanDot_through (u' g : List Char) (d : Char)
    (hu : ∀ c ∈ u', pyIsSpace c = false) (hg : ∀ c ∈ g, pyIsSpace c = true)
    (hn : '\n' ∈ g) (hd : isLcdChar d = true) :
    urlScanDot (u' ++ '.' :: (g ++ [d])) = some (u' ++ ['.', d], []) := by
  induction u' with
  | nil =>
    have hdns : pyIsSpace d = false := lcd_not_space hd
    have hgap : urlTryGap (g ++ [d]) = some (d, []) := by
      unfold urlTryGap
      rw [takeWhile_append_all hg, takeWhile_cons_false hdns,
        dropWhile_append_all hg, dropWhile_cons_false hdns]
      rw [if_pos (by simp [hn])]
      simp only [urlTryLcd]
      rw [if_pos hd]
    show urlScanDot ('.' :: (g ++ [d])) = some (['.', d], [])
    simp [urlScanDot, hgap]
  | cons a u'' ih =>
    have hans : pyIsSpace a = false := hu a (by simp)
    have ih' := ih (fun c hc => hu c (by simp [hc]))
    show urlScanDot (a :: (u'' ++ '.' :: (g ++ [d]))) =
      some (a :: (u'' ++ ['.', d]), [])
    by_cases hadot : a = '.'
    · have hng : urlTryGap (u'' ++ '.' :: (g ++ [d])) = none := by
        have htw : (u'' ++ '.' :: (g ++ [d])).takeWhile pyIsSpace = [] := by
          cases u'' with
          | nil => exact takeWhile_cons_false (by decide)
          | cons b u3 =>
            have : (b :: u3 ++ '.' :: (g ++ [d])) =
              b :: (u3 ++ '.' :: (g ++ [d])) := rfl
            rw [this]
            exact takeWhile_cons_false (hu b (by simp))
        unfold urlTryGap
        rw [htw]
        simp
      simp only [urlScanDot]
      rw [if_pos hadot, hng, ih']
      rfl
    · simp only [urlScanDot]
      rw [if_neg hadot, if_neg (by simp [hans]), ih']
      rfl

/-- A match that consumes the whole input is the whole output of the repair. -/
theorem urlSub_single_match {s m : List Char}
    (h : urlMatchAt s = some (m, [])) : urlSub s = m := by
  cases s with
  | nil =>
    exact absurd h (by rw [show urlMatchAt [] = none from rfl]; simp)
  | cons c t =>
    show urlSubF (c :: t).length (c :: t) = m
    rw [List.length_cons]
    rw [show urlSubF (t.length + 1) (c :: t) =
        (match urlMatchAt (c :: t) with
         | some (m0, rem) => m0 ++ urlSubF t.length rem
         | none => c :: urlSubF t.length t) from rfl, h]
    show m ++ urlSubF t.length [] = m
    rw [urlSubF_nil, List.append_nil]

/-! ## Split / join lemmas -/

/-- Step equation of the splitter at the end of input. -/
theorem pySplitAux_nil_eq (cur : List Char) :
    pySplitAux cur [] = if cur.isEmpty = true then [] else [cur.reverse] := rfl

/-- Step equation of the splitter on one character. -/
theorem pySplitAux_cons_eq (cur : List Char) (c : Char) (t : List Char) :
    pySplitAux cur (c :: t) =
      if pyIsSpace c = true then
        (if cur.isEmpty = true then pySplitAux [] t
         else cur.reverse :: pySplitAux [] t)
      else pySplitAux (c :: cur) t := rfl

/-- `str.split()` produces non-empty whitespace-free words. -/
theorem pySplitAux_good :
    ∀ {s cur : List Char}, (∀ c ∈ cur, pyIsSpace c = false) →
      GoodWords (pySplitAux cur s) := by
  intro s
  induction s with
  | nil =>
    intro cur h
    rw [pySplitAux_nil_eq]
    by_cases hc : cur.isEmpty = true
    · rw [if_pos hc]
      intro w hw
      cases hw
    · rw [if_neg hc]
      intro w hw
      have hw' : w = cur.reverse := by simpa using hw
      subst hw'
      refine ⟨?_, ?_⟩
      · rw [ne_eq, List.reverse_eq_nil_iff]
        exact (List.isEmpty_eq_false).1 (by simpa using hc)
      · intro c hcc
        exact h c (List.mem_reverse.1 hcc)
  | cons c t ih =>
    intro cur h
    rw [pySplitAux_cons_eq]
    by_cases hcw : pyIsSpace c = true
    · rw [if_pos hcw]
      by_cases hc : cur.isEmpty = true
      · rw [if_pos hc]
        exact ih (by simp)
      · rw [if_neg hc]
        intro w hw
        rcases (List.mem_cons).1 hw with rfl | hw
        · refine ⟨?_, ?_⟩
          · rw [ne_eq, List.reverse_eq_nil_iff]
            exact (List.isEmpty_eq_false).1 (by simpa using hc)
          · intro x hx
            exact h x (List.mem_reverse.1 hx)
        · exact ih (by simp) w hw
    · rw [if_neg hcw]
      apply ih
      intro x hx
      rcases (List.mem_cons).1 hx with rfl | hx
      · exact (by simpa using hcw)
      · exact h x hx

/-- The splitter passes over a whitespace-free segment, accumulating it. -/
theorem pySplitAux_word (t : List Char) :
    ∀ {w cur : List Char}, (∀ c ∈ w, pyIsSpace c = false) →
      pySplitAux cur (w ++ t) = pySplitAux (w.reverse ++ cur) t := by
  intro w
  induction w with
  | nil => intro cur _; rfl
  | cons a w' ih =>
    intro cur h
    have ha : pyIsSpace a = false := h a (by simp)
    show pySplitAux cur (a :: (w' ++ t)) = _
    rw [pySplitAux_cons_eq, if_neg (by simp [ha]),
      ih (fun c hc => h c (by simp [hc]))]
    congr 1
    simp

/-- Words of the splitter output take their characters from the accumulator or
the input. -/
theorem pySplitAux_mem :
    ∀ {s cur w : List Char}, w ∈ pySplitAux cur s →
      ∀ a ∈ w, a ∈ cur ∨ a ∈ s := by
  intro s
  induction s with
  | nil =>
    intro cur w hw a ha
    rw [pySplitAux_nil_eq] at hw
    by_cases hc : cur.isEmpty = true
    · rw [if_pos hc] at hw; cases hw
    · rw [if_neg hc] at hw
      have hw' : w = cur.reverse := by simpa using hw
      subst hw'
      exact Or.inl (List.mem_reverse.1 ha)
  | cons c t ih =>
    intro cur w hw a ha
    rw [pySplitAux_cons_eq] at hw
    by_cases hcw : pyIsSpace c = true
    · rw [if_pos hcw] at hw
      by_cases hc : cur.isEmpty = true
      · rw [if_pos hc] at hw
        rcases ih hw a ha with h | h
        · cases h
        · exact Or.inr (by simp [h])
      · rw [if_neg hc] at hw
        rcases (List.mem_cons).1 hw with rfl | hw
        · exact Or.inl (List.mem_reverse.1 ha)
        · rcases ih hw a ha with h | h
          · cases h
          · exact Or.inr (by simp [h])
    · rw [if_neg hcw] at hw
      rcases ih hw a ha with h | h
      · rcases (List.mem_cons).1 h with rfl | h
        · exact Or.inr (by simp)
        · exact Or.inl h
      · exact Or.inr (by simp [h])

/-- With a non-empty first word, a joined word list is non-empty. -/
theorem joinSp_ne_nil {w : List Char} {ws : List (List Char)} (h : w ≠ []) :
    joinSp (w :: ws) ≠ [] := by
  cases ws with
  | nil => exact h
  | cons v ws2 =>
    show w ++ ' ' :: joinSp (v :: ws2) ≠ []
    simp

/-- The head of a joined word list is the head of its first word. -/
theorem joinSp_headIsWs {w : List Char} (ws : List (List Char)) (h : w ≠ []) :
    headIsWs (joinSp (w :: ws)) = headIsWs w := by
  cases ws with
  | nil => rfl
  | cons v ws2 =>
    show headIsWs (w ++ ' ' :: joinSp (v :: ws2)) = headIsWs w
    exact headIsWs_append h

/-- The stop-head of a joined word list is that of its first word. -/
theorem joinSp_headIsStop {w : List Char} (ws : List (List Char)) (h : w ≠ []) :
    headIsStop (joinSp (w :: ws)) = headIsStop w := by
  cases ws with
  | nil => rfl
  | cons v ws2 =>
    show headIsStop (w ++ ' ' :: joinSp (v :: ws2)) = headIsStop w
    exact headIsStop_append h

/-- A good joined word list starts with a non-whitespace character. -/
theorem joinSp_head_good {ws : List (List Char)} (h : GoodWords ws) :
    headIsWs (joinSp ws) = false := by
  cases ws with
  | nil => rfl
  | cons w ws2 =>
    obtain ⟨hne, hch⟩ := h w (by simp)
    rw [joinSp_headIsWs ws2 hne]
    cases w with
    | nil => exact absurd rfl hne
    | cons a w' => exact hch a (by simp)

/-- A good joined word list ends with a non-whitespace character. -/
theorem joinSp_last_good :
    ∀ {ws : List (List Char)}, GoodWords ws →
      headIsWs (joinSp ws).reverse = false := by
  intro ws
  induction ws with
  | nil => intro _; rfl
  | cons w ws2 ih =>
    intro h
    obtain ⟨hne, hch⟩ := h w (by simp)
    cases ws2 with
    | nil =>
      cases hr : w.reverse with
      | nil => rw [List.reverse_eq_nil_iff] at hr; exact absurd hr hne
      | cons b u =>
        show headIsWs w.reverse = false
        rw [hr]
        show pyIsSpace b = false
        exact hch b (List.mem_reverse.1 (by rw [hr]; simp))
    | cons v ws3 =>
      have hgt : GoodWords (v :: ws3) := fun x hx => h x (by simp [hx])
      have hJ : joinSp (v :: ws3) ≠ [] :=
        joinSp_ne_nil (hgt v (by simp)).1
      show headIsWs (w ++ ' ' :: joinSp (v :: ws3)).reverse = false
      rw [List.reverse_append, List.reverse_cons]
      rw [headIsWs_append (by simp)]
      rw [headIsWs_append (by simpa [ne_eq, List.reverse_eq_nil_iff] using hJ)]
      exact ih hgt

/-- Characters of a joined word list are spaces or word characters. -/
theorem mem_joinSp :
    ∀ {ws : List (List Char)} {a : Char}, a ∈ joinSp ws →
      a = ' ' ∨ ∃ w ∈ ws, a ∈ w := by
  intro ws
  induction ws with
  | nil => intro a h; cases h
  | cons w ws2 ih =>
    intro a h
    cases ws2 with
    | nil => exact Or.inr ⟨w, by simp, h⟩
    | cons v ws3 =>
      have h' : a ∈ w ++ ' ' :: joinSp (v :: ws3) := h
      rcases List.mem_append.1 h' with hw | hr
      · exact Or.inr ⟨w, by simp, hw⟩
      · rcases (List.mem_cons).1 hr with rfl | hr
        · exact Or.inl rfl
        · rcases ih hr with h1 | ⟨x, hx, hax⟩
          · exact Or.inl h1
          · exact Or.inr ⟨x, by simp [hx], hax⟩

/-- Characters of a good joined word list are the space or non-whitespace. -/
theorem joinSp_chars {ws : List (List Char)} (h : GoodWords ws) :
    ∀ a ∈ joinSp ws, a = ' ' ∨ pyIsSpace a = false := by
  intro a ha
  rcases mem_joinSp ha with h1 | ⟨w, hw, haw⟩
  · exact Or.inl h1
  · exact Or.inr ((h w hw).2 a haw)

/-- `str.split()` output is good. -/
theorem pySplitWs_good (s : List Char) : GoodWords (pySplitWs s) :=
  pySplitAux_good (by simp)

/-- Round trip: splitting a good joined word list recovers the words. -/
theorem split_join_roundtrip :
    ∀ {ws : List (List Char)}, GoodWords ws → pySplitWs (joinSp ws) = ws := by
  intro ws
  induction ws with
  | nil => intro _; rfl
  | cons w ws2 ih =>
    intro h
    obtain ⟨hne, hch⟩ := h w (by simp)
    have hws2 : GoodWords ws2 := fun x hx => h x (by simp [hx])
    cases ws2 with
    | nil =>
      show pySplitAux [] (joinSp [w]) = [w]
      rw [show joinSp [w] = w from rfl]
      rw [show pySplitAux [] w = pySplitAux [] (w ++ []) by rw [List.append_nil]]
      rw [pySplitAux_word [] hch, pySplitAux_nil_eq]
      rw [if_neg (by simp [hne])]
      simp
    | cons v ws3 =>
      show pySplitAux [] (joinSp (w :: v :: ws3)) = w :: v :: ws3
      rw [show joinSp (w :: v :: ws3) = w ++ ' ' :: joinSp (v :: ws3) from rfl]
      rw [pySplitAux_word (' ' :: joinSp (v :: ws3)) hch]
      rw [pySplitAux_cons_eq, if_pos (by decide)]
      rw [if_neg (by simp [hne])]
      simp only [List.append_nil, List.reverse_reverse]
      show w :: pySplitWs (joinSp (v :: ws3)) = w :: v :: ws3
      rw [ih hws2]

/-- Collapsing produces a good joined word list. -/
theorem wsCollapse_eq_joinSp (s : List Char) :
    wsCollapse s = joinSp (pySplitWs s) := rfl

/-- Characters of the collapse output are spaces or input characters. -/
theorem mem_wsCollapse {s : List Char} {a : Char} (h : a ∈ wsCollapse s) :
    a = ' ' ∨ a ∈ s := by
  rcases mem_joinSp h with h1 | ⟨w, hw, haw⟩
  · exact Or.inl h1
  · rcases pySplitAux_mem hw a haw with h2 | h2
    · cases h2
    · exact Or.inr h2

/-- An all-whitespace string collapses to the empty string. -/
theorem wsCollapse_all_space :
    ∀ {s : List Char}, (∀ c ∈ s, pyIsSpace c = true) → wsCollapse s = [] := by
  have aux : ∀ (s : List Char), (∀ c ∈ s, pyIsSpace c = true) →
      pySplitAux [] s = [] := by
    intro s
    induction s with
    | nil => intro _; rfl
    | cons c t ih =>
      intro h
      rw [pySplitAux_cons_eq, if_pos (h c (by simp)),
        if_pos (show ([] : List Char).isEmpty = true from rfl)]
      exact ih (fun x hx => h x (by simp [hx]))
  intro s h
  show joinSp (pySplitAux [] s) = []
  rw [aux s h]
  rfl

/-! ## Punctuation-cleanup lemmas -/

/-- Step equation of the punctuation cleanup. -/
theorem punctSub_cons_eq (c : Char) (t : List Char) :
    punctSub (c :: t) =
      if (pyIsSpace c && headIsStop (t.dropWhile pyIsSpace)) = true then punctSub t
      else c :: punctSub t := rfl

/-- Characters of the cleanup output come from the input. -/
theorem mem_punctSub :
    ∀ {s : List Char} {a : Char}, a ∈ punctSub s → a ∈ s := by
  intro s
  induction s with
  | nil => intro a h; cases h
  | cons c t ih =>
    intro a h
    rw [punctSub_cons_eq] at h
    by_cases hc : (pyIsSpace c && headIsStop (t.dropWhile pyIsSpace)) = true
    · rw [if_pos hc] at h
      exact (List.mem_cons).2 (Or.inr (ih h))
    · rw [if_neg hc] at h
      rcases (List.mem_cons).1 h with rfl | h
      · simp
      · exact (List.mem_cons).2 (Or.inr (ih h))

/-- The cleanup passes over a whitespace-free segment. -/
theorem punctSub_word {r : List Char} :
    ∀ {w : List Char}, (∀ c ∈ w, pyIsSpace c = false) →
      punctSub (w ++ r) = w ++ punctSub r := by
  intro w
  induction w with
  | nil => intro _; rfl
  | cons a w' ih =>
    intro h
    have ha : pyIsSpace a = false := h a (by simp)
    show punctSub (a :: (w' ++ r)) = a :: (w' ++ punctSub r)
    rw [punctSub_cons_eq, if_neg (by simp [ha]),
      ih (fun c hc => h c (by simp [hc]))]

/-- `dropWhile` is the identity on a string with non-whitespace head. -/
theorem dropWhile_of_head_false {l : List Char} (h : headIsWs l = false) :
    l.dropWhile pyIsSpace = l := by
  cases l with
  | nil => rfl
  | cons c t => exact dropWhile_cons_false h

/-- Absorbing a prefix into the first word of a join. -/
theorem joinSp_absorb (w w1 : List Char) (rest : List (List Char)) :
    joinSp ((w ++ w1) :: rest) = w ++ joinSp (w1 :: rest) := by
  cases rest with
  | nil => rfl
  | cons r rs =>
    show (w ++ w1) ++ ' ' :: joinSp (r :: rs) = w ++ (w1 ++ ' ' :: joinSp (r :: rs))
    rw [List.append_assoc]

/-- The punctuation cleanup maps a good joined word list to a good joined word
list whose non-first words do not start with a stop mark; it also preserves
the head character. -/
theorem punctSub_joinSp :
    ∀ {ws : List (List Char)}, GoodWords ws →
      ∃ ws', GoodWords ws' ∧ StopFreeTail ws' ∧
        punctSub (joinSp ws) = joinSp ws' ∧
        (ws ≠ [] → ws' ≠ [] ∧
          headIsStop (joinSp ws') = headIsStop (joinSp ws)) := by
  intro ws
  induction ws with
  | nil =>
    intro _
    refine ⟨[], ?_, ?_, ?_, ?_⟩
    · intro w hw; cases hw
    · trivial
    · rfl
    · intro hx; exact absurd rfl hx
  | cons w ws2 ih =>
    intro h
    obtain ⟨hne, hch⟩ := h w (by simp)
    have hws2 : GoodWords ws2 := fun x hx => h x (by simp [hx])
    cases ws2 with
    | nil =>
      refine ⟨[w], h, ?_, ?_, fun _ => ⟨by simp, rfl⟩⟩
      · intro x hx; cases hx
      · have hpw := punctSub_word (r := ([] : List Char)) hch
        rw [List.append_nil] at hpw
        rw [show joinSp [w] = w from rfl, hpw,
          show punctSub ([] : List Char) = [] from rfl, List.append_nil]
    | cons v ws3 =>
      obtain ⟨ws'', hB, hC, hA, hD⟩ := ih hws2
      obtain ⟨hD1, hD2⟩ := hD (by simp)
      obtain ⟨w1, rest, rfl⟩ : ∃ w1 rest, ws'' = w1 :: rest := by
        cases ws'' with
        | nil => exact absurd rfl hD1
        | cons w1 rest => exact ⟨w1, rest, rfl⟩
      have hvne : v ≠ [] := (hws2 v (by simp)).1
      have hw1 : w1 ≠ [] := (hB w1 (by simp)).1
      have hJhead : headIsWs (joinSp (v :: ws3)) = false := joinSp_head_good hws2
      have hstep : punctSub (joinSp (w :: v :: ws3)) =
          w ++ punctSub (' ' :: joinSp (v :: ws3)) := by
        rw [show joinSp (w :: v :: ws3) = w ++ ' ' :: joinSp (v :: ws3) from rfl]
        exact punctSub_word hch
      by_cases hstop : headIsStop (joinSp (v :: ws3)) = true
      · -- the space is deleted and `w` fuses with the first word of `ws''`
        have hcond : (pyIsSpace ' ' &&
            headIsStop ((joinSp (v :: ws3)).dropWhile pyIsSpace)) = true := by
          rw [dropWhile_of_head_false hJhead, hstop]
          decide
        have hsp : punctSub (' ' :: joinSp (v :: ws3)) = punctSub (joinSp (v :: ws3)) := by
          rw [punctSub_cons_eq, if_pos hcond]
        refine ⟨(w ++ w1) :: rest, ?_, ?_, ?_, fun _ => ⟨by simp, ?_⟩⟩
        · intro x hx
          rcases (List.mem_cons).1 hx with rfl | hx
          · refine ⟨by simp [hne], ?_⟩
            intro c hc
            rcases List.mem_append.1 hc with hc | hc
            · exact hch c hc
            · exact (hB w1 (by simp)).2 c hc
          · exact hB x (by simp [hx])
        · intro x hx
          exact hC x hx
        · rw [hstep, hsp, hA, joinSp_absorb]
        · rw [joinSp_absorb, headIsStop_append hne,
            joinSp_headIsStop (v :: ws3) hne]
      · -- the space survives and `w` stays its own word
        have hcond : (pyIsSpace ' ' &&
            headIsStop ((joinSp (v :: ws3)).dropWhile pyIsSpace)) = false := by
          rw [dropWhile_of_head_false hJhead,
            (by simpa using hstop : headIsStop (joinSp (v :: ws3)) = false)]
          decide
        have hsp : punctSub (' ' :: joinSp (v :: ws3)) =
            ' ' :: punctSub (joinSp (v :: ws3)) := by
          rw [punctSub_cons_eq, if_neg (by simp [hcond])]
        refine ⟨w :: w1 :: rest, ?_, ?_, ?_, fun _ => ⟨by simp, ?_⟩⟩
        · intro x hx
          rcases (List.mem_cons).1 hx with rfl | hx
          · exact ⟨hne, hch⟩
          · exact hB x hx
        · intro x hx
          rcases (List.mem_cons).1 hx with rfl | hx
          · have h1 := hD2
            rw [joinSp_headIsStop rest hw1] at h1
            rw [h1]
            simpa using hstop
          · exact hC x hx
        · rw [hstep, hsp, hA]
          rfl
        · rw [joinSp_headIsStop (w1 :: rest) hne, joinSp_headIsStop (v :: ws3) hne]

/-- On a good joined word list whose non-first words do not start with stop
marks, the punctuation cleanup is the identity. -/
theorem punctSub_stopfree :
    ∀ {ws : List (List Char)}, GoodWords ws → StopFreeTail ws →
      punctSub (joinSp ws) = joinSp ws := by
  intro ws
  induction ws with
  | nil => intro _ _; rfl
  | cons w ws2 ih =>
    intro h hsf
    obtain ⟨hne, hch⟩ := h w (by simp)
    have hws2 : GoodWords ws2 := fun x hx => h x (by simp [hx])
    cases ws2 with
    | nil =>
      have hpw := punctSub_word (r := ([] : List Char)) hch
      rw [List.append_nil] at hpw
      rw [show joinSp [w] = w from rfl, hpw,
        show punctSub ([] : List Char) = [] from rfl, List.append_nil]
    | cons v ws3 =>
      have hvne : v ≠ [] := (hws2 v (by simp)).1
      have hJhead : headIsWs (joinSp (v :: ws3)) = false := joinSp_head_good hws2
      have hstop : headIsStop (joinSp (v :: ws3)) = false := by
        rw [joinSp_headIsStop ws3 hvne]
        exact hsf v (by simp)
      have hsf3 : StopFreeTail (v :: ws3) := by
        intro x hx
        exact hsf x (by simp [hx])
      rw [show joinSp (w :: v :: ws3) = w ++ ' ' :: joinSp (v :: ws3) from rfl]
      rw [punctSub_word hch, punctSub_cons_eq, if_neg ?_, ih hws2 hsf3]
      rw [dropWhile_of_head_false hJhead]
      simp [hstop]

/-! ## Unicode-normalization lemmas -/

/-- The numero sign never occurs in NFKD output. -/
theorem nfkd_no_numero : ∀ {s : List Char}, '№' ∉ nfkdStr s := by
  intro s
  induction s with
  | nil => intro h; cases h
  | cons c t ih =>
    intro h
    rcases List.mem_append.1 h with h | h
    · unfold nfkdChar at h
      by_cases hc : c = '№'
      · rw [if_pos hc] at h
        simp at h
      · rw [if_neg hc] at h
        have : ('№' : Char) = c := by simpa using h
        exact hc this.symm
    · exact ih h

/-- A string without the numero sign is NFKD-fixed. -/
theorem nfkd_fixed : ∀ {s : List Char}, '№' ∉ s → nfkdStr s = s := by
  intro s
  induction s with
  | nil => intro _; rfl
  | cons c t ih =>
    intro h
    show nfkdChar c ++ nfkdStr t = c :: t
    rw [show nfkdChar c = [c] by
      unfold nfkdChar
      rw [if_neg (fun hc => h (by simp [hc]))]]
    rw [ih (fun hm => h (by simp [hm]))]
    rfl

/-! ## Split-scanner lemmas -/

/-- Step equation of the split scanner while accumulating a piece. -/
theorem splitRun_some_cons (acc : List Char) (c : Char) (rest : List Char) :
    splitRun (some acc) (c :: rest) =
      if (isStopChar c && headIsWs rest) = true then
        (c :: acc).reverse :: splitRun none rest
      else splitRun (some (c :: acc)) rest := rfl

/-- Step equation of the split scanner while consuming a delimiter. -/
theorem splitRun_none_cons (c : Char) (rest : List Char) :
    splitRun none (c :: rest) =
      if pyIsSpace c = true then splitRun none rest
      else if (isStopChar c && headIsWs rest) = true then [c] :: splitRun none rest
      else splitRun (some [c]) rest := rfl

/-- Reversing a cons re-associates around an append. -/
theorem rev_cons_append (a : Char) (acc rest : List Char) :
    (a :: acc).reverse ++ rest = acc.reverse ++ (a :: rest) := by
  rw [List.reverse_cons, List.append_assoc]
  rfl

/-- Dropping the first character preserves a non-whitespace last character. -/
theorem headIsWs_reverse_tail {a : Char} {rest : List Char}
    (h : headIsWs (a :: rest).reverse = false) :
    headIsWs rest.reverse = false := by
  cases hr : rest.reverse with
  | nil => rfl
  | cons b u =>
    rw [List.reverse_cons, hr] at h
    exact h

/-- A non-whitespace last character passes to a non-empty suffix. -/
theorem lastNotWs_suffix {x rest : List Char} (hne : rest ≠ [])
    (h : headIsWs (x ++ rest).reverse = false) :
    headIsWs rest.reverse = false := by
  rw [List.reverse_append] at h
  rwa [headIsWs_append (by simp [hne])] at h

/-- Pieces produced by the split scanner neither start nor end with
whitespace, given that the current piece and the remaining input do not. -/
theorem splitRun_ends :
    ∀ {l : List Char} (mode : Option (List Char)),
      (∀ acc, mode = some acc →
        headIsWs ((acc.reverse ++ l).reverse) = false ∧
        headIsWs acc.reverse = false ∧
        (acc = [] → headIsWs l = false)) →
      (mode = none → headIsWs l.reverse = false) →
      ∀ c ∈ splitRun mode l,
        headIsWs c = false ∧ headIsWs c.reverse = false := by
  intro l
  induction l with
  | nil =>
    intro mode hsome hnone c hc
    cases mode with
    | some acc =>
      have hc0 : c ∈ [acc.reverse] := hc
      have hc' : c = acc.reverse := by simpa using hc0
      subst hc'
      obtain ⟨hE, h2, _⟩ := hsome acc rfl
      rw [List.append_nil, List.reverse_reverse] at hE
      refine ⟨h2, ?_⟩
      rw [List.reverse_reverse]
      exact hE
    | none =>
      have hc0 : c ∈ [([] : List Char)] := hc
      have hc' : c = [] := by simpa using hc0
      subst hc'
      exact ⟨rfl, rfl⟩
  | cons a rest ih =>
    intro mode hsome hnone c hc
    cases mode with
    | some acc =>
      obtain ⟨hE, h2, h3⟩ := hsome acc rfl
      rw [splitRun_some_cons] at hc
      by_cases hcond : (isStopChar a && headIsWs rest) = true
      · rw [if_pos hcond] at hc
        obtain ⟨hstopa, hwsr⟩ := Bool.and_eq_true_iff.mp hcond
        have hrne : rest ≠ [] := by
          cases rest with
          | nil => exact absurd hwsr (by decide)
          | cons x xs => simp
        rcases (List.mem_cons).1 hc with rfl | hc
        · constructor
          · rw [List.reverse_cons]
            cases hacc : acc.reverse with
            | nil =>
              show headIsWs ([] ++ [a]) = false
              show pyIsSpace a = false
              exact stop_not_space hstopa
            | cons y ys =>
              rw [headIsWs_append (by simp [hacc])]
              rw [← hacc]
              exact h2
          · rw [List.reverse_reverse]
            show pyIsSpace a = false
            exact stop_not_space hstopa
        · apply ih none (fun acc' heq => by cases heq) (fun _ => ?_) c hc
          have hE' : headIsWs ((acc.reverse ++ [a]) ++ rest).reverse = false := by
            rw [List.append_assoc]
            exact hE
          exact lastNotWs_suffix hrne hE'
      · rw [if_neg hcond] at hc
        apply ih (some (a :: acc)) ?_ (fun heq => by cases heq) c hc
        intro acc' heq
        have hacc' : acc' = a :: acc := by
          injection heq with h'
          exact h'.symm
        subst hacc'
        refine ⟨?_, ?_, ?_⟩
        · rw [rev_cons_append]
          exact hE
        · rw [List.reverse_cons]
          cases hacc : acc.reverse with
          | nil =>
            show pyIsSpace a = false
            have hae : acc = [] := by
              rw [← List.reverse_reverse acc, hacc]
              rfl
            exact h3 hae
          | cons y ys =>
            rw [headIsWs_append (by simp [hacc])]
            rw [← hacc]
            exact h2
        · intro h'
          cases h'
    | none =>
      have hEn := hnone rfl
      rw [splitRun_none_cons] at hc
      by_cases hws : pyIsSpace a = true
      · rw [if_pos hws] at hc
        exact ih none (fun acc' heq => by cases heq)
          (fun _ => headIsWs_reverse_tail hEn) c hc
      · rw [if_neg hws] at hc
        by_cases hcond : (isStopChar a && headIsWs rest) = true
        · rw [if_pos hcond] at hc
          rcases (List.mem_cons).1 hc with rfl | hc
          · exact ⟨by simpa using hws, by simpa using hws⟩
          · exact ih none (fun acc' heq => by cases heq)
              (fun _ => headIsWs_reverse_tail hEn) c hc
        · rw [if_neg hcond] at hc
          apply ih (some [a]) ?_ (fun heq => by cases heq) c hc
          intro acc' heq
          have hacc' : acc' = [a] := by
            injection heq with h'
            exact h'.symm
          subst hacc'
          refine ⟨?_, ?_, ?_⟩
          · exact hEn
          · show pyIsSpace a = false
            simpa using hws
          · intro h'
            cases h'

/-- Every piece produced by the split scanner is a contiguous segment of the
pending text. -/
theorem splitRun_seg :
    ∀ {l : List Char} (mode : Option (List Char)) {c : List Char},
      c ∈ splitRun mode l →
      ∃ p q, accPart mode ++ l = p ++ (c ++ q) := by
  intro l
  induction l with
  | nil =>
    intro mode c hc
    cases mode with
    | some acc =>
      have hc0 : c ∈ [acc.reverse] := hc
      have hc' : c = acc.reverse := by simpa using hc0
      subst hc'
      exact ⟨[], [], by simp [accPart]⟩
    | none =>
      have hc0 : c ∈ [([] : List Char)] := hc
      have hc' : c = [] := by simpa using hc0
      subst hc'
      exact ⟨[], [], by simp [accPart]⟩
  | cons a rest ih =>
    intro mode c hc
    cases mode with
    | some acc =>
      rw [splitRun_some_cons] at hc
      by_cases hcond : (isStopChar a && headIsWs rest) = true
      · rw [if_pos hcond] at hc
        rcases (List.mem_cons).1 hc with rfl | hc
        · refine ⟨[], rest, ?_⟩
          show acc.reverse ++ (a :: rest) = [] ++ ((a :: acc).reverse ++ rest)
          rw [rev_cons_append]
          rfl
        · obtain ⟨p, q, hpq⟩ := ih none hc
          have hrest : rest = p ++ (c ++ q) := by simpa [accPart] using hpq
          refine ⟨(acc.reverse ++ [a]) ++ p, q, ?_⟩
          show acc.reverse ++ (a :: rest) = _
          rw [hrest]
          simp [List.append_assoc]
      · rw [if_neg hcond] at hc
        obtain ⟨p, q, hpq⟩ := ih (some (a :: acc)) hc
        refine ⟨p, q, ?_⟩
        show acc.reverse ++ (a :: rest) = p ++ (c ++ q)
        rw [← rev_cons_append]
        exact hpq
    | none =>
      rw [splitRun_none_cons] at hc
      by_cases hws : pyIsSpace a = true
      · rw [if_pos hws] at hc
        obtain ⟨p, q, hpq⟩ := ih none hc
        have hrest : rest = p ++ (c ++ q) := by simpa [accPart] using hpq
        refine ⟨a :: p, q, ?_⟩
        show [] ++ (a :: rest) = _
        rw [hrest]
        simp
      · rw [if_neg hws] at hc
        by_cases hcond : (isStopChar a && headIsWs rest) = true
        · rw [if_pos hcond] at hc
          rcases (List.mem_cons).1 hc with rfl | hc
          · exact ⟨[], rest, by simp [accPart]⟩
          · obtain ⟨p, q, hpq⟩ := ih none hc
            have hrest : rest = p ++ (c ++ q) := by simpa [accPart] using hpq
            refine ⟨a :: p, q, ?_⟩
            show [] ++ (a :: rest) = _
            rw [hrest]
            simp
        · rw [if_neg hcond] at hc
          obtain ⟨p, q, hpq⟩ := ih (some [a]) hc
          refine ⟨p, q, ?_⟩
          show [] ++ (a :: rest) = p ++ (c ++ q)
          simpa [accPart] using hpq

/-! ## No-double-whitespace lemmas -/

/-- Step equation on two characters. -/
theorem noTwoWs_cc (a b : Char) (t : List Char) :
    noTwoWs (a :: b :: t) =
      (!(pyIsSpace a && pyIsSpace b) && noTwoWs (b :: t)) := rfl

/-- The absence of double whitespace passes to both halves of an append. -/
theorem noTwoWs_split :
    ∀ {x y : List Char}, noTwoWs (x ++ y) = true →
      noTwoWs x = true ∧ noTwoWs y = true := by
  intro x
  induction x with
  | nil => intro y h; exact ⟨rfl, h⟩
  | cons a x' ih =>
    intro y h
    cases x' with
    | nil =>
      cases y with
      | nil => exact ⟨rfl, rfl⟩
      | cons b ys =>
        have h' : noTwoWs (a :: b :: ys) = true := h
        rw [noTwoWs_cc] at h'
        exact ⟨rfl, (Bool.and_eq_true_iff.mp h').2⟩
    | cons a2 xs =>
      have h' : noTwoWs (a :: a2 :: (xs ++ y)) = true := h
      rw [noTwoWs_cc] at h'
      obtain ⟨h1, h2⟩ := Bool.and_eq_true_iff.mp h'
      obtain ⟨h3, h4⟩ := ih h2
      refine ⟨?_, h4⟩
      rw [noTwoWs_cc]
      exact Bool.and_eq_true_iff.mpr ⟨h1, h3⟩

/-- A whitespace-free segment can be prepended to a double-whitespace-free
string. -/
theorem noTwoWs_word_app :
    ∀ {w r : List Char}, (∀ c ∈ w, pyIsSpace c = false) →
      noTwoWs r = true → noTwoWs (w ++ r) = true := by
  intro w
  induction w with
  | nil => intro r _ hr; exact hr
  | cons a w' ih =>
    intro r h hr
    have ha : pyIsSpace a = false := h a (by simp)
    cases w' with
    | nil =>
      cases r with
      | nil => rfl
      | cons b rs =>
        show noTwoWs (a :: b :: rs) = true
        rw [noTwoWs_cc]
        exact Bool.and_eq_true_iff.mpr ⟨by simp [ha], hr⟩
    | cons a2 xs =>
      show noTwoWs (a :: a2 :: (xs ++ r)) = true
      rw [noTwoWs_cc]
      refine Bool.and_eq_true_iff.mpr ⟨by simp [ha], ?_⟩
      exact ih (fun c hc => h c (by simp [hc])) hr

/-- A good joined word list has no two consecutive whitespace characters. -/
theorem noTwoWs_joinSp :
    ∀ {ws : List (List Char)}, GoodWords ws → noTwoWs (joinSp ws) = true := by
  intro ws
  induction ws with
  | nil => intro _; rfl
  | cons w ws2 ih =>
    intro h
    obtain ⟨hne, hch⟩ := h w (by simp)
    have hws2 : GoodWords ws2 := fun x hx => h x (by simp [hx])
    cases ws2 with
    | nil =>
      have := noTwoWs_word_app (r := ([] : List Char)) hch rfl
      rw [List.append_nil] at this
      exact this
    | cons v ws3 =>
      show noTwoWs (w ++ ' ' :: joinSp (v :: ws3)) = true
      apply noTwoWs_word_app hch
      cases hJ : joinSp (v :: ws3) with
      | nil => rfl
      | cons b jt =>
        rw [noTwoWs_cc]
        refine Bool.and_eq_true_iff.mpr ⟨?_, ?_⟩
        · have hhead : headIsWs (joinSp (v :: ws3)) = false := joinSp_head_good hws2
          rw [hJ] at hhead
          have hb : pyIsSpace b = false := hhead
          simp [hb]
        · rw [← hJ]
          exact ih hws2

/-! ## Stage fixed-point wrappers -/

/-- The hyphen repair fixes strings without line breaks. -/
theorem hyphenSub_fixed {y : List Char} (h : '\n' ∉ y) : hyphenSub y = y :=
  hyphRun_no_newline h

/-- The URL repair fixes strings without line breaks. -/
theorem urlSub_fixed {y : List Char} (h : '\n' ∉ y) : urlSub y = y :=
  urlSubF_no_newline h

/-! ## Claim C7 -/

/-- Claim C7: the repair-then-normalize stage of `clean_and_split_text`
(Unicode normalization, hyphen repair, URL repair, whitespace collapse,
punctuation cleanup — lines 27–38 of `main.py`) is idempotent: running it
twice yields the same result as running it once. -/
theorem claim_C7_idempotent (s : List Char) :
    cleanStage (cleanStage s) = cleanStage s := by
  obtain ⟨ws', hB, hC, hA, _⟩ :=
    punctSub_joinSp (pySplitWs_good (urlSub (hyphenSub (nfkdStr s))))
  have hy : cleanStage s = joinSp ws' := hA
  have hnum : '№' ∉ cleanStage s := by
    intro hmem
    have h1 : '№' ∈ wsCollapse (urlSub (hyphenSub (nfkdStr s))) :=
      mem_punctSub hmem
    rcases mem_wsCollapse h1 with h2 | h2
    · exact absurd h2 (by decide)
    · rcases urlSubF_mem h2 with h3 | h3
      · exact absurd (hyphRun_mem _ h3) nfkd_no_numero
      · exact absurd h3 (by decide)
  have hnl : '\n' ∉ cleanStage s := by
    intro hmem
    rw [hy] at hmem
    rcases joinSp_chars hB '\n' hmem with h1 | h1
    · exact absurd h1 (by decide)
    · exact absurd h1 (by decide)
  show punctSub (wsCollapse (urlSub (hyphenSub (nfkdStr (cleanStage s))))) =
    cleanStage s
  rw [nfkd_fixed hnum, hyphenSub_fixed hnl, urlSub_fixed hnl, hy,
    wsCollapse_eq_joinSp, split_join_roundtrip hB]
  exact punctSub_stopfree hB hC

/-! ## Claim C4 -/

/-- Claim C4: a URL token (`http://` or `https://` followed by non-whitespace),
a literal `.`, a whitespace gap `\s*\n\s*` (whitespace containing a line
break), and a lowercase letter or digit are rejoined by removing the gap and
keeping the `.`. -/
theorem claim_C4_url_repair (scheme : List Char)
    (hs : scheme = httpsChars ∨ scheme = httpChars) (u g : List Char) (d : Char)
    (hu : u ≠ []) (huw : ∀ c ∈ u, pyIsSpace c = false)
    (hg : ∀ c ∈ g, pyIsSpace c = true) (hn : '\n' ∈ g)
    (hd : isLcdChar d = true) :
    urlSub (scheme ++ (u ++ '.' :: (g ++ [d]))) = scheme ++ (u ++ ['.', d]) := by
  obtain ⟨c0, u', rfl⟩ : ∃ c0 u', u = c0 :: u' := by
    cases u with
    | nil => exact absurd rfl hu
    | cons c0 u' => exact ⟨c0, u', rfl⟩
  have hc0 : pyIsSpace c0 = false := huw c0 (by simp)
  have hscan := urlScanDot_through u' g d (fun c hc => huw c (by simp [hc])) hg hn hd
  rcases hs with rfl | rfl
  · apply urlSub_single_match
    unfold urlMatchAt
    have h8 : (httpsChars ++ (c0 :: u' ++ '.' :: (g ++ [d]))).take 8 = httpsChars :=
      List.take_left httpsChars (c0 :: u' ++ '.' :: (g ++ [d]))
    have hdrop : (httpsChars ++ (c0 :: u' ++ '.' :: (g ++ [d]))).drop 8 =
        c0 :: u' ++ '.' :: (g ++ [d]) :=
      List.drop_left httpsChars (c0 :: u' ++ '.' :: (g ++ [d]))
    rw [if_pos h8, hdrop]
    show urlCont httpsChars (c0 :: (u' ++ '.' :: (g ++ [d]))) = _
    simp only [urlCont]
    rw [if_neg (by simp [hc0]), hscan]
    rfl
  · apply urlSub_single_match
    unfold urlMatchAt
    have h8 : ¬((httpChars ++ (c0 :: u' ++ '.' :: (g ++ [d]))).take 8 = httpsChars) := by
      intro he
      have h4 := congrArg (fun l => l.get? 4) he
      rw [show httpChars ++ (c0 :: u' ++ '.' :: (g ++ [d])) =
        'h' :: 't' :: 't' :: 'p' :: ':' :: '/' :: '/' :: (c0 :: u' ++ '.' :: (g ++ [d]))
        from rfl] at h4
      simp [httpsChars, List.take_succ_cons, List.get?] at h4
    have h7 : (httpChars ++ (c0 :: u' ++ '.' :: (g ++ [d]))).take 7 = httpChars :=
      List.take_left httpChars (c0 :: u' ++ '.' :: (g ++ [d]))
    have hdrop : (httpChars ++ (c0 :: u' ++ '.' :: (g ++ [d]))).drop 7 =
        c0 :: u' ++ '.' :: (g ++ [d]) :=
      List.drop_left httpChars (c0 :: u' ++ '.' :: (g ++ [d]))
    rw [if_neg h8, if_pos h7, hdrop]
    show urlCont httpChars (c0 :: (u' ++ '.' :: (g ++ [d]))) = _
    simp only [urlCont]
    rw [if_neg (by simp [hc0]), hscan]
    rfl

/-- Claim C4, witness: the URL-repair theorem applied to
`"https://synia" ++ "." ++ "\n" ++ "c"`. -/
theorem claim_C4_witness :
    urlSub (httpsChars ++ (("synia").data ++ '.' :: (("\n").data ++ ['c']))) =
      httpsChars ++ (("synia").data ++ ['.', 'c']) :=
  claim_C4_url_repair httpsChars (Or.inl rfl) _ _ _ (by decide) (by decide)
    (by decide) (by decide) (by decide)

/-! ## Claim C3 -/

/-- Claim C3, counterexample to the claim as stated: the hyphenation repair
does join fragments whose gap contains two consecutive line breaks — the text
`"ab-\n\ncd"` does not pass through unchanged (it becomes `"abcd"`), because
`\s*` in `(\w+)-\s*\n\s*(\w+)` itself matches line breaks. -/
theorem claim_C3_counterexample :
    hyphenSub (("ab-\n\ncd").data) ≠ ("ab-\n\ncd").data := by decide

/-- Claim C3 (amended): an occurrence of word characters, `-`, a whitespace
gap containing at least one line break (however many), and word characters is
collapsed by deleting the hyphen and the whole intervening whitespace gap. -/
theorem claim_C3_hyphen_repair (w1 g w2 : List Char)
    (hw1 : w1 ≠ []) (hw1w : ∀ c ∈ w1, isWordChar c = true)
    (hw2 : w2 ≠ []) (hw2w : ∀ c ∈ w2, isWordChar c = true)
    (hg : ∀ c ∈ g, pyIsSpace c = true) (hn : '\n' ∈ g) :
    hyphenSub (w1 ++ '-' :: (g ++ w2)) = w1 ++ w2 := by
  obtain ⟨d, w2', rfl⟩ : ∃ d w2', w2 = d :: w2' := by
    cases w2 with
    | nil => exact absurd rfl hw2
    | cons d t => exact ⟨d, t, rfl⟩
  have hdns : pyIsSpace d = false := word_not_space (hw2w d (by simp))
  unfold hyphenSub
  rw [hyphRun_word_run hw1 hw1w]
  congr 1
  have hgap : hyphGapOk (g ++ d :: w2') = true := by
    unfold hyphGapOk
    rw [takeWhile_append_all hg, takeWhile_cons_false hdns,
      dropWhile_append_all hg, dropWhile_cons_false hdns]
    simp [hn, hw2w d (by simp)]
  rw [hyphRun_norm_cons, if_pos (by simp [hgap]), hyphRun_gap_run hg,
    hyphRun_gap_cons, if_neg (by simp [hdns])]
  congr 1
  have h2 := hyphRun_grp_run (r := []) (w := w2')
    (fun c hc => hw2w c (by simp [hc]))
  rw [List.append_nil] at h2
  rw [h2, hyphRun_nil, List.append_nil]

/-- Claim C3, witness: the amended repair theorem applied to
`"config" ++ "-" ++ "\n" ++ "ured"`. -/
theorem claim_C3_witness :
    hyphenSub (("config").data ++ '-' :: (("\n").data ++ ("ured").data)) =
      ("config").data ++ ("ured").data :=
  claim_C3_hyphen_repair _ _ _ (by decide) (by decide) (by decide) (by decide)
    (by decide) (by decide)

/-! ## Header-insertion helpers -/

/-- On a header-like block without terminal punctuation, a period is added. -/
theorem headerAdjust_append {raw : List Char}
    (h1 : (pyStrip raw).length < 100) (h2 : pyStrip raw ≠ [])
    (h3 : pyIsUpper ((pyStrip raw).headD ' ') = true)
    (h4 : (pyStrip raw).getLastD ' ' ∉ (['.', '!', ':', ';', '?'] : List Char)) :
    headerAdjust raw = pyStrip raw ++ ['.'] := by
  simp only [headerAdjust]
  have hcondb : (decide ((pyStrip raw).length < 100) && !(pyStrip raw).isEmpty &&
      pyIsUpper ((pyStrip raw).headD ' ')) = true :=
    Bool.and_eq_true_iff.mpr ⟨Bool.and_eq_true_iff.mpr
      ⟨decide_eq_true h1, by rw [(List.isEmpty_eq_false).2 h2]; rfl⟩, h3⟩
  rw [if_pos hcondb, if_neg h4]

/-- On a header-like block that already ends in terminal punctuation, the
trimmed content passes through. -/
theorem headerAdjust_keep {raw : List Char}
    (h1 : (pyStrip raw).length < 100) (h2 : pyStrip raw ≠ [])
    (h3 : pyIsUpper ((pyStrip raw).headD ' ') = true)
    (h4 : (pyStrip raw).getLastD ' ' ∈ (['.', '!', ':', ';', '?'] : List Char)) :
    headerAdjust raw = pyStrip raw := by
  simp only [headerAdjust]
  have hcondb : (decide ((pyStrip raw).length < 100) && !(pyStrip raw).isEmpty &&
      pyIsUpper ((pyStrip raw).headD ' ')) = true :=
    Bool.and_eq_true_iff.mpr ⟨Bool.and_eq_true_iff.mpr
      ⟨decide_eq_true h1, by rw [(List.isEmpty_eq_false).2 h2]; rfl⟩, h3⟩
  rw [if_pos hcondb, if_pos h4]

/-- On a block failing the header classification, the trimmed content passes
through with nothing appended. -/
theorem headerAdjust_nonheader {raw : List Char}
    (h : ¬((pyStrip raw).length < 100 ∧ pyStrip raw ≠ [] ∧
      pyIsUpper ((pyStrip raw).headD ' ') = true)) :
    headerAdjust raw = pyStrip raw := by
  simp only [headerAdjust]
  cases hbc : ((pyStrip raw).length < 100 && !(pyStrip raw).isEmpty &&
      pyIsUpper ((pyStrip raw).headD ' ')) with
  | true =>
    exfalso
    apply h
    simp only [Bool.and_eq_true_iff, decide_eq_true_eq,
      Bool.not_eq_true', List.isEmpty_eq_false] at hbc
    exact ⟨hbc.1.1, hbc.1.2, hbc.2⟩
  | false =>
    rw [if_neg (by simp [hbc])]

/-! ## Claim C1 -/

/-- Claim C1: a TEXT block is header-like iff its trimmed content is shorter
than 100 characters, non-empty, and starts with an uppercase letter; if
header-like and the last character is not one of `.`, `!`, `:`, `;`, `?`,
exactly one `.` is appended to the trimmed content, else it passes unchanged. -/
theorem claim_C1_header_boundary (raw : List Char) :
    (((pyStrip raw).length < 100 ∧ pyStrip raw ≠ [] ∧
        pyIsUpper ((pyStrip raw).headD ' ') = true) →
      (((pyStrip raw).getLastD ' ' ∉ (['.', '!', ':', ';', '?'] : List Char) →
          headerAdjust raw = pyStrip raw ++ ['.']) ∧
        ((pyStrip raw).getLastD ' ' ∈ (['.', '!', ':', ';', '?'] : List Char) →
          headerAdjust raw = pyStrip raw))) ∧
    (¬((pyStrip raw).length < 100 ∧ pyStrip raw ≠ [] ∧
        pyIsUpper ((pyStrip raw).headD ' ') = true) →
      headerAdjust raw = pyStrip raw) := by
  constructor
  · intro hcond
    exact ⟨fun h4 => headerAdjust_append hcond.1 hcond.2.1 hcond.2.2 h4,
      fun h4 => headerAdjust_keep hcond.1 hcond.2.1 hcond.2.2 h4⟩
  · exact headerAdjust_nonheader

/-- Claim C1, witness: the block `"Results"` is header-like, does not end in
terminal punctuation, and receives exactly one period. -/
theorem claim_C1_witness :
    ((pyStrip (("Results").data)).length < 100 ∧ pyStrip (("Results").data) ≠ [] ∧
      pyIsUpper ((pyStrip (("Results").data)).headD ' ') = true) ∧
    headerAdjust (("Results").data) = pyStrip (("Results").data) ++ ['.'] :=
  ⟨by decide,
    ((claim_C1_header_boundary (("Results").data)).1 (by decide)).1 (by decide)⟩

/-! ## Claim C9 -/

/-- Claim C9, counterexample to the claim as stated: the block `" x"` fails
the header classification (its trimmed content starts with a lowercase
letter), yet the code does not return the block content unmodified — it
returns the trimmed content `"x"`. -/
theorem claim_C9_counterexample :
    pyIsUpper ((pyStrip ((" x").data)).headD ' ') = false ∧
      headerAdjust ((" x").data) ≠ (" x").data := by decide

/-- Claim C9 (amended): a TEXT block failing the header classification passes
through as its trimmed content, with no punctuation appended. -/
theorem claim_C9_nonheader (raw : List Char)
    (h : ¬((pyStrip raw).length < 100 ∧ pyStrip raw ≠ [] ∧
      pyIsUpper ((pyStrip raw).headD ' ') = true)) :
    headerAdjust raw = pyStrip raw :=
  headerAdjust_nonheader h

/-- Claim C9, witness: a lowercase block passes through trimmed and
unmodified. -/
theorem claim_C9_witness :
    headerAdjust (("hello world block").data) =
      pyStrip (("hello world block").data) :=
  claim_C9_nonheader (("hello world block").data) (by decide)

/-! ## Strip-fixed candidates -/

/-- Every candidate produced by splitting the normalized text neither starts
nor ends with whitespace. -/
theorem reSplit_clean_ends {x : List Char} :
    ∀ c ∈ reSplit (punctSub (wsCollapse x)),
      headIsWs c = false ∧ headIsWs c.reverse = false := by
  obtain ⟨ws', hB, _, hA, _⟩ := punctSub_joinSp (pySplitWs_good x)
  intro c hc
  apply splitRun_ends (some []) ?_ (fun heq => by cases heq) c hc
  intro acc heq
  have hacc : acc = [] := by injection heq with h'; exact h'.symm
  subst hacc
  refine ⟨?_, rfl, fun _ => ?_⟩
  · show headIsWs ((punctSub (wsCollapse x)).reverse) = false
    rw [wsCollapse_eq_joinSp, hA]
    exact joinSp_last_good hB
  · show headIsWs (punctSub (wsCollapse x)) = false
    rw [wsCollapse_eq_joinSp, hA]
    exact joinSp_head_good hB

/-! ## Claim C2 -/

/-- Claim C2: a candidate produced by splitting the normalized text is kept
iff its trimmed length exceeds 10 and its trimmed content is not all digits
(on such candidates trimming is the identity, so the code's untrimmed
`isdigit` test agrees); in particular a 10-character candidate is discarded,
an 11-character non-digit candidate is kept, and an all-digit candidate of
length 13 is discarded. -/
theorem claim_C2_filter_boundary :
    (∀ u : List Char,
      filterSentences (reSplit (punctSub (wsCollapse u))) =
        (reSplit (punctSub (wsCollapse u))).filter
          (fun c => decide (10 < (pyStrip c).length) && !pyIsDigitStr (pyStrip c))) ∧
    filterSentences [("abcdefghij").data] = [] ∧
    filterSentences [("abcdefghijk").data] = [("abcdefghijk").data] ∧
    filterSentences [("1234567890123").data] = [] := by
  refine ⟨?_, by decide, by decide, by decide⟩
  intro u
  have hfix : ∀ c ∈ reSplit (punctSub (wsCollapse u)), pyStrip c = c := by
    intro c hc
    obtain ⟨h1, h2⟩ := reSplit_clean_ends c hc
    exact strip_eq_self h1 h2
  unfold filterSentences
  have hfeq : List.filter
      (fun s => decide (10 < (pyStrip s).length) && !pyIsDigitStr s)
      (reSplit (punctSub (wsCollapse u))) =
    List.filter
      (fun c => decide (10 < (pyStrip c).length) && !pyIsDigitStr (pyStrip c))
      (reSplit (punctSub (wsCollapse u))) :=
    List.filter_congr (fun c hc => by rw [hfix c hc])
  rw [hfeq]
  have hsub : ∀ c ∈ (reSplit (punctSub (wsCollapse u))).filter
      (fun c => decide (10 < (pyStrip c).length) && !pyIsDigitStr (pyStrip c)),
      pyStrip c = c := by
    intro c hc
    exact hfix c (List.mem_of_mem_filter hc)
  rw [List.map_congr_left (g := id) (fun c hc => hsub c hc), List.map_id]

/-! ## Claim C5 -/

/-- Claim C5, counterexample: the implemented pipeline is not the spec-ordered
composition Segmenter∘Normalizer∘StructuralRepair.  The code normalizes
(NFKD) before the structural repair; on `"Abcdefgh con-\n№xy."` NFKD turns
`№` into the word characters `No`, so the code's hyphen repair joins across
the break while the spec-ordered composition does not. -/
theorem claim_C5_counterexample :
    clean_and_split_text (("Abcdefgh con-\n№xy.").data) ≠
      specOrderPipeline (("Abcdefgh con-\n№xy.").data) := by decide

/-- Claim C5 (amended): the pipeline deviates from the spec order only by
running Unicode normalization first: it equals the spec-ordered composition
Segmenter∘Normalizer∘StructuralRepair applied to the NFKD-normalized
document (structural repair introduces no decomposable characters, so the
Normalizer's NFKD step is then the identity). -/
theorem claim_C5_nfkd_first (raw : List Char) :
    clean_and_split_text raw = specOrderPipeline (nfkdStr raw) := by
  show filterSentences (reSplit (punctSub (wsCollapse
      (urlSub (hyphenSub (nfkdStr raw)))))) =
    filterSentences (reSplit (punctSub (wsCollapse
      (nfkdStr (urlSub (hyphenSub (nfkdStr raw)))))))
  have hnum : '№' ∉ urlSub (hyphenSub (nfkdStr raw)) := by
    intro hmem
    rcases urlSubF_mem hmem with h | h
    · exact absurd (hyphRun_mem _ h) nfkd_no_numero
    · exact absurd h (by decide)
  rw [nfkd_fixed hnum]

/-! ## Claim C6 -/

/-- Claim C6: the pipeline output depends only on the sequence of TEXT blocks
in reading order, so inserting, removing, or reshuffling NON_TEXT blocks
(or repaginating) never changes the emitted sentence sequence. -/
theorem claim_C6_nontext_invariance (p1 p2 : List (List Block))
    (h : textBlocks p1 = textBlocks p2) :
    extract_sentences p1 = extract_sentences p2 := by
  unfold extract_sentences
  rw [h]

/-- Claim C6, witness: inserting an image block and moving the page boundary
leaves the output unchanged. -/
theorem claim_C6_witness :
    extract_sentences
        [[Block.mk 1 (("IMG").data), Block.mk 0 (("Finn and Tyge were present.").data)]] =
      extract_sentences [[Block.mk 0 (("Finn and Tyge were present.").data)], []] :=
  claim_C6_nontext_invariance _ _ (by decide)

/-! ## Claim C8 -/

/-- A join of empty pieces consists of line breaks only. -/
theorem joinNL_all_empty :
    ∀ {bs : List (List Char)}, (∀ x ∈ bs, x = []) →
      ∀ c ∈ joinNL bs, c = '\n' := by
  intro bs
  induction bs with
  | nil => intro _ c hc; cases hc
  | cons b bs2 ih =>
    intro h c hc
    cases bs2 with
    | nil =>
      rw [show joinNL [b] = b from rfl, h b (by simp)] at hc
      cases hc
    | cons b2 bs3 =>
      have hc' : c ∈ b ++ '\n' :: joinNL (b2 :: bs3) := hc
      rcases List.mem_append.1 hc' with hcb | hcr
      · rw [h b (by simp)] at hcb
        cases hcb
      · rcases (List.mem_cons).1 hcr with rfl | hcr
        · rfl
        · exact ih (fun x hx => h x (by simp [hx])) c hcr

/-- The whole pipeline maps an all-whitespace document to the empty list. -/
theorem clean_all_space {s : List Char}
    (h : ∀ c ∈ s, pyIsSpace c = true) : clean_and_split_text s = [] := by
  have h1 : nfkdStr s = s := by
    apply nfkd_fixed
    intro hmem
    exact absurd (h '№' hmem) (by decide)
  show filterSentences (reSplit (punctSub (wsCollapse
    (urlSub (hyphenSub (nfkdStr s)))))) = []
  rw [h1, show hyphenSub s = s from hyphRun_all_space h,
    show urlSub s = s from urlSubF_all_space h, wsCollapse_all_space h]
  rfl

/-- Claim C8: an empty document yields an empty sentence sequence, and so does
any document whose blocks contain only whitespace; the pipeline is a total
function on well-formed block lists. -/
theorem claim_C8_empty_total :
    extract_sentences [] = [] ∧
    ∀ pages : List (List Block),
      (∀ b ∈ allBlocks pages, ∀ c ∈ b.content, pyIsSpace c = true) →
      extract_sentences pages = [] := by
  constructor
  · rfl
  · intro pages h
    have hall : ∀ x ∈ (textBlocks pages).map (fun b => headerAdjust b.content),
        x = [] := by
      intro x hx
      rcases List.mem_map.1 hx with ⟨b, hb, rfl⟩
      have hbc : ∀ c ∈ b.content, pyIsSpace c = true :=
        h b (List.mem_of_mem_filter hb)
      have hstrip : pyStrip b.content = [] := strip_all_space hbc
      rw [headerAdjust_nonheader (by simp [hstrip]), hstrip]
    apply clean_all_space
    intro c hc
    rw [joinNL_all_empty hall c hc]
    decide

/-- Claim C8, witness: a document with one all-whitespace text block yields
the empty sequence. -/
theorem claim_C8_witness :
    extract_sentences [[Block.mk 0 ((" ").data)]] = [] :=
  claim_C8_empty_total.2 _ (by decide)

/-! ## Claim C10 -/

/-- Claim C10: every emitted sentence equals its own trim, is non-empty,
contains no line break, and has no two consecutive whitespace characters. -/
theorem claim_C10_output_shape (raw : List Char) :
    ∀ s ∈ clean_and_split_text raw,
      pyStrip s = s ∧ s ≠ [] ∧ '\n' ∉ s ∧ noTwoWs s = true := by
  intro s hs
  obtain ⟨ws', hB, _, hA, _⟩ :=
    punctSub_joinSp (pySplitWs_good (urlSub (hyphenSub (nfkdStr raw))))
  have hsM : s ∈ (List.filter
      (fun c => decide (10 < (pyStrip c).length) && !pyIsDigitStr c)
      (reSplit (cleanStage raw))).map pyStrip := hs
  rcases List.mem_map.1 hsM with ⟨c, hcf, rfl⟩
  have hcc : c ∈ reSplit (cleanStage raw) := List.mem_of_mem_filter hcf
  have hpred := (List.mem_filter.1 hcf).2
  have hlen : 10 < (pyStrip c).length := by
    have := (Bool.and_eq_true_iff.mp hpred).1
    exact of_decide_eq_true this
  have hfix : pyStrip c = c := by
    obtain ⟨h1, h2⟩ := reSplit_clean_ends c hcc
    exact strip_eq_self h1 h2
  have htJ : cleanStage raw = joinSp ws' := hA
  refine ⟨?_, ?_, ?_, ?_⟩
  · rw [hfix]
    exact hfix
  · rw [hfix]
    rw [hfix] at hlen
    exact List.ne_nil_of_length_pos (by omega)
  · rw [hfix]
    intro hmem
    obtain ⟨p, q, hpq⟩ := splitRun_seg (some []) hcc
    have hmt : '\n' ∈ cleanStage raw := by
      have : cleanStage raw = p ++ (c ++ q) := by simpa [accPart] using hpq
      rw [this]
      simp [hmem]
    rw [htJ] at hmt
    rcases joinSp_chars hB '\n' hmt with h1 | h1
    · exact absurd h1 (by decide)
    · exact absurd h1 (by decide)
  · rw [hfix]
    obtain ⟨p, q, hpq⟩ := splitRun_seg (some []) hcc
    have hpq' : cleanStage raw = p ++ (c ++ q) := by simpa [accPart] using hpq
    have ht2 : noTwoWs (cleanStage raw) = true := by
      rw [htJ]
      exact noTwoWs_joinSp hB
    rw [hpq'] at ht2
    exact (noTwoWs_split (noTwoWs_split ht2).2).1

/-- Claim C10, witness: the shape invariant at a concrete document. -/
theorem claim_C10_witness :
    pyStrip (("Finn and Tyge were present.").data) =
        ("Finn and Tyge were present.").data ∧
      ("Finn and Tyge were present.").data ≠ [] ∧
      '\n' ∉ (("Finn and Tyge were present.").data) ∧
      noTwoWs (("Finn and Tyge were present.").data) = true :=
  claim_C10_output_shape (("Finn and Tyge were present.").data)
    (("Finn and Tyge were present.").data) (by decide)

end PdfExtract
